import Mathlib

/-!
# Black-hole physics core: a real-arithmetic model

Shallow embedding of `src/Physics/BlackHole.{h,cpp}`, `src/Physics/AccretionDisk.{h,cpp}`
and the constants of `src/Physics/Constants.h`.

Modelling conventions.

* A C++ `float` is idealised as a real number: arithmetic is exact, there is no rounding,
  and decimal literals such as `0.998f` denote the decimal they spell.
* A library call outside its real domain (`sqrt` of a negative number, `acos` outside
  `[-1, 1]`, `pow` of a negative base to a fractional exponent) yields NaN in C++.
  Such a result is modelled by `none`; getters that make these calls return `Option ℝ`.
* Member functions that mutate the object become functions returning the new state.
* The `const BlackHole*` held by an `AccretionDisk` is modelled by passing the current
  state of the pointed-to black hole explicitly.
-/

noncomputable section

namespace Physics

/-! ## Numeric helpers -/

/-- Three-component vector, `glm::vec3`. -/
structure Vec3 where
  x : ℝ
  y : ℝ
  z : ℝ

namespace Vec3

/-- Component-wise sum, `a + b` on `glm::vec3`. -/
def add (a b : Vec3) : Vec3 := ⟨a.x + b.x, a.y + b.y, a.z + b.z⟩

/-- Component-wise difference, `a - b` on `glm::vec3`. -/
def sub (a b : Vec3) : Vec3 := ⟨a.x - b.x, a.y - b.y, a.z - b.z⟩

/-- Scaling by a scalar, `v * s` (and `s * v`) on `glm::vec3`. -/
def smul (v : Vec3) (s : ℝ) : Vec3 := ⟨v.x * s, v.y * s, v.z * s⟩

/-- The `glm::dot` of two vectors. -/
def dot (a b : Vec3) : ℝ := a.x * b.x + a.y * b.y + a.z * b.z

/-- The `glm::cross` of two vectors. -/
def cross (a b : Vec3) : Vec3 :=
  ⟨a.y * b.z - b.y * a.z, a.z * b.x - b.z * a.x, a.x * b.y - b.x * a.y⟩

/-- The `glm::length` of a vector, `sqrt(dot(v, v))`. -/
def length (v : Vec3) : ℝ := Real.sqrt (dot v v)

/-- The `glm::normalize` of a vector, `v * inversesqrt(dot(v, v))`: for the zero vector this
is `0 * inf`, NaN in every component (`none`). -/
def normalize (v : Vec3) : Option Vec3 :=
  if dot v v = 0 then none else some (smul v (1 / Real.sqrt (dot v v)))

end Vec3

/-- Two-component vector, `glm::vec2`. -/
structure Vec2 where
  x : ℝ
  y : ℝ

/-- The `glm::length` of a `glm::vec2`. -/
def Vec2.length (v : Vec2) : ℝ := Real.sqrt (v.x * v.x + v.y * v.y)

/-- Speed of light, `SPEED_OF_LIGHT` of Constants.h. -/
def SPEED_OF_LIGHT : ℝ := 299792458.0

/-- Lower spin bound, `MIN_SPIN` of Constants.h. -/
def MIN_SPIN : ℝ := 0.0

/-- Upper spin bound, `MAX_SPIN` of Constants.h. -/
def MAX_SPIN : ℝ := 0.998

/-- The two-argument `std::max(a, b)`: `(a < b) ? b : a`. -/
def fmax (a b : ℝ) : ℝ := if a < b then b else a

/-- The `std::clamp(v, lo, hi)`: `(v < lo) ? lo : (hi < v) ? hi : v`. -/
def clamp (v lo hi : ℝ) : ℝ := if v < lo then lo else if hi < v then hi else v

/-- The `std::sqrt`: NaN (`none`) on a negative argument. -/
def fsqrt (x : ℝ) : Option ℝ := if 0 ≤ x then some (Real.sqrt x) else none

/-- The `std::acos`: NaN (`none`) outside `[-1, 1]`. -/
def facos (x : ℝ) : Option ℝ := if -1 ≤ x ∧ x ≤ 1 then some (Real.arccos x) else none

/-- The `std::pow(x, y)`: NaN (`none`) for a negative base with a non-integer exponent,
and no finite value (`none`) for a zero base with a negative exponent. -/
def fpow (x y : ℝ) : Option ℝ :=
  open Classical in
  if x < 0 ∧ ¬ (∃ n : ℤ, (n : ℝ) = y) then none
  else if x = 0 ∧ y < 0 then none
  else some (x ^ y)

/-- The two-argument `std::min(a, b)`: `(b < a) ? b : a`. -/
def fmin (a b : ℝ) : ℝ := if b < a then b else a

/-- Float division `x / y`: a zero divisor gives an infinity or NaN, no real value (`none`). -/
def fdiv (x y : ℝ) : Option ℝ := if y = 0 then none else some (x / y)

/-- The `std::atan2(y, x)`: the angle of the point `(x, y)` in `(-pi, pi]`, and 0 at the
origin. -/
def atan2 (y x : ℝ) : ℝ := Complex.arg ⟨x, y⟩

/-- The `glm::clamp(x, minVal, maxVal)`: `min(max(x, minVal), maxVal)`. -/
def glmClamp (x minVal maxVal : ℝ) : ℝ := fmin (fmax x minVal) maxVal

/-- The `temperatureToRGB` of Constants.h. The calls of `glm::pow` and `glm::log` are made on
arguments the preceding clamp and branch conditions keep positive. -/
def temperatureToRGB (temperature0 : ℝ) : Vec3 :=
  let temperature : ℝ := glmClamp (temperature0 / 1000.0) 1.0 40.0
  let r : ℝ :=
    if temperature ≤ 66.0 then 1.0
    else glmClamp (1.292936186 * (temperature - 60.0) ^ (-0.1332047592 : ℝ)) 0.0 1.0
  let g : ℝ :=
    if temperature ≤ 66.0 then
      glmClamp (0.39008157876 * Real.log temperature - 0.63184144378) 0.0 1.0
    else glmClamp (1.129890861 * (temperature - 60.0) ^ (-0.0755148492 : ℝ)) 0.0 1.0
  let b : ℝ :=
    if temperature ≥ 66.0 then 1.0
    else if temperature ≤ 19.0 then 0.0
    else glmClamp (0.54320678911 * Real.log (temperature - 10.0) - 1.19625408914) 0.0 1.0
  ⟨r, g, b⟩

/-! ## BlackHole -/

/-- Data members of `class BlackHole`. -/
structure BlackHole where
  m_mass : ℝ
  m_spin : ℝ
  m_position : Vec3
  m_schwarzschildRadius : ℝ
  m_spinParameter : ℝ

namespace BlackHole

/-- The `BlackHole::updateDerivedQuantities`. -/
def updateDerivedQuantities (bh : BlackHole) : BlackHole :=
  let baseMass : ℝ := 10.0
  let baseRadius : ℝ := 2.0
  let scale : ℝ := 0.4
  let r0 : ℝ :=
    if bh.m_mass > baseMass then
      baseRadius + scale * Real.log (bh.m_mass / baseMass) / Real.log 10.0
    else
      baseRadius * (bh.m_mass / baseMass)
  let rs : ℝ := fmax r0 1.0
  { bh with m_schwarzschildRadius := rs, m_spinParameter := bh.m_spin * rs * 0.5 }

/-- Constructor `BlackHole::BlackHole(mass, spin)`: the member initialisers followed by
`updateDerivedQuantities()`, which overwrites both derived members. -/
def init (mass spin : ℝ) : BlackHole :=
  updateDerivedQuantities
    { m_mass := mass
      m_spin := clamp spin MIN_SPIN MAX_SPIN
      m_position := ⟨0.0, 0.0, 0.0⟩
      m_schwarzschildRadius := 0
      m_spinParameter := 0 }

/-- The `BlackHole::setMass`. -/
def setMass (bh : BlackHole) (mass : ℝ) : BlackHole :=
  updateDerivedQuantities { bh with m_mass := fmax 0.1 mass }

/-- The `BlackHole::setSpin`. -/
def setSpin (bh : BlackHole) (spin : ℝ) : BlackHole :=
  updateDerivedQuantities { bh with m_spin := clamp spin MIN_SPIN MAX_SPIN }

/-- The `BlackHole::setPosition`. -/
def setPosition (bh : BlackHole) (position : Vec3) : BlackHole :=
  { bh with m_position := position }

/-- The `BlackHole::getMass`. -/
def getMass (bh : BlackHole) : ℝ := bh.m_mass

/-- The `BlackHole::getSpin`. -/
def getSpin (bh : BlackHole) : ℝ := bh.m_spin

/-- The `BlackHole::getPosition`. -/
def getPosition (bh : BlackHole) : Vec3 := bh.m_position

/-- The `BlackHole::getSchwarzschildRadius`. -/
def getSchwarzschildRadius (bh : BlackHole) : ℝ := bh.m_schwarzschildRadius

/-- The `BlackHole::getISCO`. -/
def getISCO (bh : BlackHole) : Option ℝ := do
  let c1 ← fpow (1.0 - bh.m_spin * bh.m_spin) (1.0 / 3.0)
  let c2 ← fpow (1.0 + bh.m_spin) (1.0 / 3.0)
  let c3 ← fpow (1.0 - bh.m_spin) (1.0 / 3.0)
  let Z1 : ℝ := 1.0 + c1 * (c2 + c3)
  let Z2 ← fsqrt (3.0 * bh.m_spin * bh.m_spin + Z1 * Z1)
  let d ← fsqrt ((3.0 - Z1) * (3.0 + Z1 + 2.0 * Z2))
  let rISCO : ℝ := bh.m_schwarzschildRadius * 0.5 * (3.0 + Z2 - d)
  pure rISCO

/-- The `BlackHole::getPhotonSphereRadius`. -/
def getPhotonSphereRadius (bh : BlackHole) : Option ℝ :=
  if bh.m_spin < 0.01 then
    some (1.5 * bh.m_schwarzschildRadius)
  else do
    let a : ℝ := bh.m_spinParameter
    let ac ← facos (-a)
    pure (bh.m_schwarzschildRadius * (1.0 + Real.cos (2.0 / 3.0 * ac)))

/-- The `BlackHole::getErgosphereRadius`. -/
def getErgosphereRadius (bh : BlackHole) (theta : ℝ) : Option ℝ :=
  if bh.m_spin < 0.01 then
    some bh.m_schwarzschildRadius
  else do
    let M : ℝ := bh.m_schwarzschildRadius * 0.5
    let a : ℝ := bh.m_spinParameter
    let cosTheta : ℝ := Real.cos theta
    let s ← fsqrt (M * M - a * a * cosTheta * cosTheta)
    pure (M + s)

/-- The `BlackHole::getEventHorizonRadius`; the argument `theta` is unused by the body. -/
def getEventHorizonRadius (bh : BlackHole) (_theta : ℝ) : Option ℝ :=
  if bh.m_spin < 0.01 then
    some bh.m_schwarzschildRadius
  else do
    let M : ℝ := bh.m_schwarzschildRadius * 0.5
    let a : ℝ := bh.m_spinParameter
    let s ← fsqrt (M * M - a * a)
    pure (M + s)

/-- The `BlackHole::getFrameDraggingVelocity`; the argument `theta` is unused by the body. -/
def getFrameDraggingVelocity (bh : BlackHole) (r _theta : ℝ) : ℝ :=
  if bh.m_spin < 0.01 then
    0.0
  else
    let M : ℝ := bh.m_schwarzschildRadius * 0.5
    let a : ℝ := bh.m_spinParameter
    let r2 : ℝ := r * r
    let a2 : ℝ := a * a
    let numerator : ℝ := 2.0 * M * a * r
    let denominator : ℝ := r2 * r2 + a2 * r2 + 2.0 * M * a2 * r
    if denominator < 1e-6 then
      0.0
    else
      numerator / denominator

/-- States of a `BlackHole` object that a program can observe: the constructor's result
and everything obtained from it through the public setters. -/
inductive Reachable : BlackHole → Prop
  | ctor (mass spin : ℝ) : Reachable (init mass spin)
  | setMass (bh : BlackHole) (mass : ℝ) : Reachable bh → Reachable (bh.setMass mass)
  | setSpin (bh : BlackHole) (spin : ℝ) : Reachable bh → Reachable (bh.setSpin spin)
  | setPosition (bh : BlackHole) (position : Vec3) :
      Reachable bh → Reachable (bh.setPosition position)

/-- The unfloored radius computed by `updateDerivedQuantities` from the mass. -/
def rawRadius (m : ℝ) : ℝ :=
  if m > 10.0 then 2.0 + 0.4 * Real.log (m / 10.0) / Real.log 10.0 else 2.0 * (m / 10.0)

/-- What every observable state satisfies: the spin is clamped and both derived members
are the values `updateDerivedQuantities` computes from the current mass and spin. -/
structure Inv (bh : BlackHole) : Prop where
  spin_nonneg : 0 ≤ bh.m_spin
  spin_le : bh.m_spin ≤ 0.998
  radius_eq : bh.m_schwarzschildRadius = fmax (rawRadius bh.m_mass) 1.0
  param_eq : bh.m_spinParameter = bh.m_spin * bh.m_schwarzschildRadius * 0.5

/-- The local `Z1` of `getISCO` as a function of the spin. -/
def iscoZ1 (s : ℝ) : ℝ :=
  1 + (1 - s * s) ^ ((1 : ℝ) / 3) * ((1 + s) ^ ((1 : ℝ) / 3) + (1 - s) ^ ((1 : ℝ) / 3))

/-- The local `Z2` of `getISCO` as a function of the spin. -/
def iscoZ2 (s : ℝ) : ℝ := Real.sqrt (3 * s * s + iscoZ1 s * iscoZ1 s)

/-- The argument of the last square root of `getISCO` as a function of the spin. -/
def iscoArg (s : ℝ) : ℝ := (3 - iscoZ1 s) * (3 + iscoZ1 s + 2 * iscoZ2 s)

/-- The factor `3 + Z2 - sqrt((3 - Z1) * (3 + Z1 + 2 * Z2))` of `getISCO`. -/
def iscoFactor (s : ℝ) : ℝ := 3 + iscoZ2 s - Real.sqrt (iscoArg s)

/-- The local `denominator` of `getFrameDraggingVelocity`. -/
def frameDraggingDenominator (bh : BlackHole) (r : ℝ) : ℝ :=
  r * r * (r * r) + bh.m_spinParameter * bh.m_spinParameter * (r * r)
    + 2 * (bh.m_schwarzschildRadius * 0.5) * (bh.m_spinParameter * bh.m_spinParameter) * r

end BlackHole

/-! ## AccretionDisk -/

/-- Data members of `class AccretionDisk`, the `m_blackHole` pointer apart: the state of the
black hole it points to is an explicit argument of every function that dereferences it. -/
structure AccretionDisk where
  m_innerRadius : ℝ
  m_outerRadius : ℝ
  m_thickness : ℝ
  m_inclination : ℝ
  m_rotationSpeed : ℝ
  m_peakTemperature : ℝ

namespace AccretionDisk

/-- Constructor `AccretionDisk::AccretionDisk(blackHole)`; `none` when `getISCO()` is NaN,
in which case no real inner radius is stored. -/
def init (blackHole : BlackHole) : Option AccretionDisk := do
  let isco ← blackHole.getISCO
  pure
    { m_innerRadius := isco
      m_outerRadius := blackHole.getSchwarzschildRadius * 15.0
      m_thickness := 0.5
      m_inclination := 0.0
      m_rotationSpeed := 1.0
      m_peakTemperature := 100000.0 }

/-- The `AccretionDisk::getInnerRadius`. -/
def getInnerRadius (d : AccretionDisk) : ℝ := d.m_innerRadius

/-- The `AccretionDisk::getOuterRadius`. -/
def getOuterRadius (d : AccretionDisk) : ℝ := d.m_outerRadius

/-- The `AccretionDisk::getThickness`. -/
def getThickness (d : AccretionDisk) : ℝ := d.m_thickness

/-- The `AccretionDisk::getRotationSpeed`. -/
def getRotationSpeed (d : AccretionDisk) : ℝ := d.m_rotationSpeed

/-- The `AccretionDisk::setInnerRadius`. -/
def setInnerRadius (d : AccretionDisk) (radius : ℝ) : AccretionDisk :=
  { d with m_innerRadius := radius }

/-- The `AccretionDisk::setOuterRadius`. -/
def setOuterRadius (d : AccretionDisk) (radius : ℝ) : AccretionDisk :=
  { d with m_outerRadius := radius }

/-- The `AccretionDisk::setThickness`. -/
def setThickness (d : AccretionDisk) (thickness : ℝ) : AccretionDisk :=
  { d with m_thickness := thickness }

/-- The `AccretionDisk::setInclination`. -/
def setInclination (d : AccretionDisk) (inclination : ℝ) : AccretionDisk :=
  { d with m_inclination := inclination }

/-- The `AccretionDisk::setRotationSpeed`. -/
def setRotationSpeed (d : AccretionDisk) (speed : ℝ) : AccretionDisk :=
  { d with m_rotationSpeed := speed }

/-- The `AccretionDisk::getTemperature`; `none` when the ratio or the power is not a real
number (zero radius, negative ratio). -/
def getTemperature (d : AccretionDisk) (radius : ℝ) : Option ℝ :=
  if radius < d.m_innerRadius then
    some 0.0
  else do
    let ratio ← fdiv d.m_innerRadius radius
    let p ← fpow ratio 0.75
    let temperature : ℝ := d.m_peakTemperature * p
    pure (temperature * (0.9 + 0.2 * Real.sin (radius * 10.0)))

/-- The `AccretionDisk::getVelocity`, reading the Schwarzschild radius of the black hole
the disk points to; `none` when `M / radius` or its square root is not a real number. -/
def getVelocity (d : AccretionDisk) (blackHole : BlackHole) (radius phi : ℝ) : Option Vec3 := do
  let M : ℝ := blackHole.getSchwarzschildRadius * 0.5
  let q ← fdiv M radius
  let s ← fsqrt q
  let v : ℝ := s * d.m_rotationSpeed
  pure ⟨-Real.sin phi * v, 0.0, Real.cos phi * v⟩

/-- The `AccretionDisk::getEmission`. For a zero radius and a non-zero inner radius the
ratio is an infinity, its square is `+inf` and `std::clamp` maps it to 10; for `0 / 0` the
intensity is NaN (`none`). -/
def getEmission (d : AccretionDisk) (radius temperature : ℝ) : Option Vec3 :=
  let color : Vec3 := temperatureToRGB temperature
  if radius = 0 then
    if d.m_innerRadius = 0 then none else some (color.smul 10.0)
  else
    let intensity : ℝ := (d.m_innerRadius / radius) ^ (2.0 : ℝ)
    some (color.smul (clamp intensity 0.0 10.0))

/-- The `AccretionDisk::getDopplerFactor`. The cap keeps `beta` in `[0, 0.99]`, so `gamma` is
a positive real; a zero last divisor gives `1 / 0 = +inf`, which `std::clamp` maps to 10. -/
def getDopplerFactor (d : AccretionDisk) (blackHole : BlackHole)
    (position observerDir : Vec3) : Option ℝ :=
  let radius : ℝ := Vec2.length ⟨position.x, position.z⟩
  if radius < d.m_innerRadius ∨ radius > d.m_outerRadius then
    some 1.0
  else do
    let phi : ℝ := atan2 position.z position.x
    let velocity ← d.getVelocity blackHole radius phi
    let beta : ℝ := fmin (velocity.length / SPEED_OF_LIGHT) 0.99
    let motionDir ← velocity.normalize
    let gamma : ℝ := 1.0 / Real.sqrt (1.0 - beta * beta)
    let cosTheta : ℝ := motionDir.dot observerDir
    let divisor : ℝ := gamma * (1.0 - beta * cosTheta)
    if divisor = 0 then pure 10.0 else pure (clamp (1.0 / divisor) 0.1 10.0)

/-- The `AccretionDisk::intersectRay`: `none` is the return value `false`, and
`some (t, radius, phi)` is the return value `true` with the three values written to the
output references. -/
def intersectRay (d : AccretionDisk) (origin direction : Vec3) : Option (ℝ × ℝ × ℝ) :=
  if |direction.y| < 1e-6 then
    none
  else
    let t : ℝ := -origin.y / direction.y
    if t < 0.0 then
      none
    else
      let hitPoint : Vec3 := origin.add (direction.smul t)
      let radius : ℝ := Vec2.length ⟨hitPoint.x, hitPoint.z⟩
      if radius < d.m_innerRadius ∨ radius > d.m_outerRadius then
        none
      else if |hitPoint.y| > d.m_thickness then
        none
      else
        some (t, radius, atan2 hitPoint.z hitPoint.x)

/-- States of an `AccretionDisk` object that a program can observe: the constructor's
result on a reachable black hole and everything obtained from it through the setters. -/
inductive Reachable : AccretionDisk → Prop
  | ctor (blackHole : BlackHole) (d : AccretionDisk) :
      blackHole.Reachable → init blackHole = some d → Reachable d
  | setInnerRadius (d : AccretionDisk) (radius : ℝ) :
      Reachable d → Reachable (d.setInnerRadius radius)
  | setOuterRadius (d : AccretionDisk) (radius : ℝ) :
      Reachable d → Reachable (d.setOuterRadius radius)
  | setThickness (d : AccretionDisk) (thickness : ℝ) :
      Reachable d → Reachable (d.setThickness thickness)
  | setInclination (d : AccretionDisk) (inclination : ℝ) :
      Reachable d → Reachable (d.setInclination inclination)
  | setRotationSpeed (d : AccretionDisk) (speed : ℝ) :
      Reachable d → Reachable (d.setRotationSpeed speed)

/-- The data-model invariant of the disk in the words of the specification:
`0 < innerRadius < outerRadius`, thickness and rotation speed non-negative. -/
def SpecInvariant (d : AccretionDisk) : Prop :=
  0 < d.getInnerRadius ∧ d.getInnerRadius < d.getOuterRadius
    ∧ 0 ≤ d.getThickness ∧ 0 ≤ d.getRotationSpeed

/-- The power-law factor `peakTemperature * (innerRadius / r)^0.75` of `getTemperature`. -/
def powerLaw (d : AccretionDisk) (r : ℝ) : ℝ :=
  d.m_peakTemperature * (d.m_innerRadius / r) ^ (0.75 : ℝ)

end AccretionDisk

/-- The radius policy in the words of the specification: logarithmic growth above the
reference mass 10, linear scaling at or below it (before the visibility floor). -/
def specRadius (m : ℝ) : ℝ :=
  if m > 10 then 2 + 0.4 * Real.logb 10 (m / 10) else 2 * m / 10

end Physics

/-! ## Camera -/

namespace Core

open Physics

/-- The `enum class CameraMode`. -/
inductive CameraMode
  | Orbit
  | FreeFly

/-- Data members of `class Camera`. The three basis vectors are results of
`glm::normalize`; `none` stands for a vector whose components are NaN. -/
structure Camera where
  m_mode : CameraMode
  m_position : Vec3
  m_target : Vec3
  m_up : Option Vec3
  m_forward : Option Vec3
  m_right : Option Vec3
  m_fov : ℝ
  m_nearPlane : ℝ
  m_farPlane : ℝ
  m_distance : ℝ
  m_theta : ℝ
  m_phi : ℝ
  m_yaw : ℝ
  m_pitch : ℝ

/-- The `glm::radians`: degrees to radians. -/
def radians (degrees : ℝ) : ℝ := degrees * (Real.pi / 180)

/-- The loop `while (m_theta > two_pi) m_theta -= two_pi` of `Camera::orbit`, as a function
of the value of `m_theta` on entry. -/
def thetaLoopSub (theta : ℝ) : ℝ :=
  if h : theta > 2 * Real.pi then thetaLoopSub (theta - 2 * Real.pi) else theta
termination_by Nat.ceil (theta / (2 * Real.pi))
decreasing_by
  have hpi : 0 < 2 * Real.pi := by positivity
  have h1 : 0 < theta / (2 * Real.pi) := div_pos (by linarith) hpi
  have e : (theta - 2 * Real.pi) / (2 * Real.pi) = theta / (2 * Real.pi) - 1 := by
    field_simp
  have hpos : 0 < Nat.ceil (theta / (2 * Real.pi)) := Nat.ceil_pos.mpr h1
  rw [e]
  by_cases hc : 0 ≤ theta / (2 * Real.pi) - 1
  · have hs := Nat.ceil_add_one hc
    rw [sub_add_cancel] at hs
    omega
  · have hz : Nat.ceil (theta / (2 * Real.pi) - 1) = 0 := Nat.ceil_eq_zero.mpr (not_le.mp hc).le
    omega

/-- The loop `while (m_theta < 0) m_theta += two_pi` of `Camera::orbit`, as a function of the
value of `m_theta` on entry. -/
def thetaLoopAdd (theta : ℝ) : ℝ :=
  if h : theta < 0.0 then thetaLoopAdd (theta + 2 * Real.pi) else theta
termination_by Nat.ceil (-theta / (2 * Real.pi))
decreasing_by
  have hpi : 0 < 2 * Real.pi := by positivity
  have h0 : theta < 0 := by
    norm_num at h
    exact h
  have h1 : 0 < -theta / (2 * Real.pi) := div_pos (neg_pos.mpr h0) hpi
  have e : -(theta + 2 * Real.pi) / (2 * Real.pi) = -theta / (2 * Real.pi) - 1 := by
    field_simp
    ring
  have hpos : 0 < Nat.ceil (-theta / (2 * Real.pi)) := Nat.ceil_pos.mpr h1
  rw [e]
  by_cases hc : 0 ≤ -theta / (2 * Real.pi) - 1
  · have hs := Nat.ceil_add_one hc
    rw [sub_add_cancel] at hs
    omega
  · have hz : Nat.ceil (-theta / (2 * Real.pi) - 1) = 0 := Nat.ceil_eq_zero.mpr (not_le.mp hc).le
    omega

namespace Camera

/-- The `Camera::updateOrbitPosition`. -/
def updateOrbitPosition (c : Camera) : Camera :=
  let x : ℝ := c.m_distance * Real.sin c.m_phi * Real.cos c.m_theta
  let y : ℝ := c.m_distance * Real.cos c.m_phi
  let z : ℝ := c.m_distance * Real.sin c.m_phi * Real.sin c.m_theta
  { c with m_position := c.m_target.add ⟨x, y, z⟩ }

/-- The local `front` of `Camera::updateVectors` in FreeFly mode. -/
def front (c : Camera) : Vec3 :=
  ⟨Real.cos (radians c.m_yaw) * Real.cos (radians c.m_pitch),
    Real.sin (radians c.m_pitch),
    Real.sin (radians c.m_yaw) * Real.cos (radians c.m_pitch)⟩

/-- The `Camera::updateVectors`. In FreeFly mode `front` has unit length, so its
normalisation is never NaN and the `none` arm for the target is not taken. -/
def updateVectors (c : Camera) : Camera :=
  let c1 : Camera :=
    match c.m_mode with
    | CameraMode.Orbit => { c with m_forward := (c.m_target.sub c.m_position).normalize }
    | CameraMode.FreeFly =>
      { c with
        m_forward := c.front.normalize
        m_target :=
          match c.front.normalize with
          | some forward => c.m_position.add forward
          | none => c.m_target }
  let right : Option Vec3 := c1.m_forward.bind fun f => (f.cross ⟨0.0, 1.0, 0.0⟩).normalize
  let up : Option Vec3 := right.bind fun r => c1.m_forward.bind fun f => (r.cross f).normalize
  { c1 with m_right := right, m_up := up }

/-- Constructor `Camera::Camera(position, target, fov)`: the member initialisers followed by
`updateVectors()`, which overwrites `m_forward` and `m_right`, left uninitialised before. -/
def init (position target : Vec3) (fov : ℝ) : Camera :=
  updateVectors
    { m_mode := CameraMode.Orbit
      m_position := position
      m_target := target
      m_up := some ⟨0.0, 1.0, 0.0⟩
      m_forward := none
      m_right := none
      m_fov := fov
      m_nearPlane := 0.1
      m_farPlane := 1000.0
      m_distance := (position.sub target).length
      m_theta := 0.0
      m_phi := Real.pi / 2
      m_yaw := -90.0
      m_pitch := 0.0 }

/-- The `Camera::update`; the argument `deltaTime` is unused by the body. -/
def update (c : Camera) (_deltaTime : ℝ) : Camera :=
  match c.m_mode with
  | CameraMode.Orbit => updateVectors (updateOrbitPosition c)
  | CameraMode.FreeFly => updateVectors c

/-- The `Camera::setMode`. -/
def setMode (c : Camera) (mode : CameraMode) : Camera := { c with m_mode := mode }

/-- The `Camera::setPosition`. -/
def setPosition (c : Camera) (position : Vec3) : Camera := { c with m_position := position }

/-- The `Camera::setTarget`. -/
def setTarget (c : Camera) (target : Vec3) : Camera := { c with m_target := target }

/-- The `Camera::setFOV`. -/
def setFOV (c : Camera) (fov : ℝ) : Camera := { c with m_fov := fov }

/-- The `Camera::setDistance`. -/
def setDistance (c : Camera) (distance : ℝ) : Camera := { c with m_distance := distance }

/-- The `Camera::getPosition`. -/
def getPosition (c : Camera) : Vec3 := c.m_position

/-- The `Camera::getTarget`. -/
def getTarget (c : Camera) : Vec3 := c.m_target

/-- The `Camera::getForward`. -/
def getForward (c : Camera) : Option Vec3 := c.m_forward

/-- The `Camera::getRight`. -/
def getRight (c : Camera) : Option Vec3 := c.m_right

/-- The `Camera::getUp`. -/
def getUp (c : Camera) : Option Vec3 := c.m_up

/-- The `Camera::getFOV`. -/
def getFOV (c : Camera) : ℝ := c.m_fov

/-- The `Camera::getDistance`. -/
def getDistance (c : Camera) : ℝ := c.m_distance

/-- The `Camera::getTheta`. -/
def getTheta (c : Camera) : ℝ := c.m_theta

/-- The `Camera::getPhi`. -/
def getPhi (c : Camera) : ℝ := c.m_phi

/-- The `Camera::orbit`. -/
def orbit (c : Camera) (deltaTheta deltaPhi : ℝ) : Camera :=
  let theta0 : ℝ := c.m_theta + deltaTheta
  let phi0 : ℝ := c.m_phi + deltaPhi
  let phi : ℝ := clamp phi0 0.01 (Real.pi - 0.01)
  let theta : ℝ := thetaLoopAdd (thetaLoopSub theta0)
  updateOrbitPosition { c with m_theta := theta, m_phi := phi }

/-- The `Camera::zoom`. -/
def zoom (c : Camera) (delta : ℝ) : Camera :=
  updateOrbitPosition { c with m_distance := fmax 0.5 (c.m_distance + delta) }

/-- The `Camera::pan`; `none` when `getRight()` or `getUp()` is NaN, which the addition
would carry into the target and the position. -/
def pan (c : Camera) (delta : Vec2) : Option Camera := do
  let right ← c.getRight
  let up ← c.getUp
  pure (updateOrbitPosition
    { c with m_target := c.m_target.add ((right.smul delta.x).add (up.smul delta.y)) })

/-- The `Camera::move`. -/
def move (c : Camera) (direction : Vec3) (speed : ℝ) : Camera :=
  { c with
    m_position := c.m_position.add (direction.smul speed)
    m_target := c.m_target.add (direction.smul speed) }

/-- The `Camera::rotate`. -/
def rotate (c : Camera) (deltaYaw deltaPitch : ℝ) : Camera :=
  updateVectors
    { c with
      m_yaw := c.m_yaw + deltaYaw
      m_pitch := clamp (c.m_pitch + deltaPitch) (-89.0) 89.0 }

/-- The direction `sphericalToCartesian(theta, phi)` of the specification's orbit-position
formula: `(sin(phi) * cos(theta), cos(phi), sin(phi) * sin(theta))`. -/
def sphericalToCartesian (theta phi : ℝ) : Vec3 :=
  ⟨Real.sin phi * Real.cos theta, Real.cos phi, Real.sin phi * Real.sin theta⟩

/-- The orbit-position formula in the words of the specification:
`position = target + distance * sphericalToCartesian(theta, phi)`. -/
def OnOrbit (c : Camera) : Prop :=
  c.getPosition
    = c.getTarget.add ((sphericalToCartesian c.getTheta c.getPhi).smul c.getDistance)

end Camera

end Core

namespace Physics

/-! ## Basic facts about the numeric helpers -/

theorem fmax_eq_max (a b : ℝ) : fmax a b = max a b := by
  unfold fmax
  split_ifs with h
  · exact (max_eq_right h.le).symm
  · exact (max_eq_left (not_lt.mp h)).symm

theorem clamp_spin_mem (v : ℝ) :
    0 ≤ clamp v MIN_SPIN MAX_SPIN ∧ clamp v MIN_SPIN MAX_SPIN ≤ 0.998 := by
  unfold clamp MIN_SPIN MAX_SPIN
  split_ifs with h1 h2
  · norm_num
  · norm_num
  · constructor
    · linarith
    · linarith

theorem fsqrt_of_nonneg {x : ℝ} (h : 0 ≤ x) : fsqrt x = some (Real.sqrt x) := by
  simp [fsqrt, h]

theorem fpow_third_of_nonneg {x : ℝ} (h : 0 ≤ x) :
    fpow x (1.0 / 3.0) = some (x ^ ((1 : ℝ) / 3)) := by
  unfold fpow
  have h1 : ¬ (x < 0 ∧ ¬ ∃ n : ℤ, (n : ℝ) = 1.0 / 3.0) := fun hh => absurd hh.1 (not_lt.mpr h)
  have h2 : ¬ (x = 0 ∧ (1.0 / 3.0 : ℝ) < 0) := fun hh => by
    have := hh.2
    norm_num at this
  rw [if_neg h1, if_neg h2]
  norm_num

/-! ## State invariant of `BlackHole` -/

namespace BlackHole

theorem update_mass (bh : BlackHole) : bh.updateDerivedQuantities.m_mass = bh.m_mass := rfl

theorem update_spin (bh : BlackHole) : bh.updateDerivedQuantities.m_spin = bh.m_spin := rfl

theorem update_radius (bh : BlackHole) :
    bh.updateDerivedQuantities.m_schwarzschildRadius = fmax (rawRadius bh.m_mass) 1.0 := rfl

theorem update_param (bh : BlackHole) :
    bh.updateDerivedQuantities.m_spinParameter
      = bh.m_spin * bh.updateDerivedQuantities.m_schwarzschildRadius * 0.5 := rfl

theorem update_inv (bh : BlackHole) (h0 : 0 ≤ bh.m_spin) (h1 : bh.m_spin ≤ 0.998) :
    Inv bh.updateDerivedQuantities :=
  ⟨h0, h1, update_radius bh, update_param bh⟩

theorem Reachable.inv {bh : BlackHole} (h : Reachable bh) : Inv bh := by
  induction h with
  | ctor mass spin => exact update_inv _ (clamp_spin_mem spin).1 (clamp_spin_mem spin).2
  | setMass bh mass _ ih => exact update_inv _ ih.spin_nonneg ih.spin_le
  | setSpin bh spin _ ih => exact update_inv _ (clamp_spin_mem spin).1 (clamp_spin_mem spin).2
  | setPosition bh position _ ih => exact ⟨ih.spin_nonneg, ih.spin_le, ih.radius_eq, ih.param_eq⟩

theorem Inv.radius_ge_one {bh : BlackHole} (h : Inv bh) : 1 ≤ bh.m_schwarzschildRadius := by
  rw [h.radius_eq, fmax_eq_max]
  norm_num

theorem rawRadius_eq_spec (m : ℝ) : rawRadius m = specRadius m := by
  unfold rawRadius specRadius Real.logb
  split_ifs with h1 h2 h2
  · norm_num
    ring
  · norm_num at h1 h2
    linarith
  · norm_num at h1 h2
    linarith
  · norm_num
    ring

end BlackHole

/-! ## Evaluating `getISCO` -/

namespace BlackHole

theorem iscoZ1_bounds {s : ℝ} (h0 : 0 ≤ s) (h1 : s ≤ 1) : 1 ≤ iscoZ1 s ∧ iscoZ1 s ≤ 3 := by
  have hu : (0 : ℝ) ≤ 1 + s := by linarith
  have hv : (0 : ℝ) ≤ 1 - s := by linarith
  have hp : (1 - s * s : ℝ) = (1 + s) * (1 - s) := by ring
  set u := (1 + s) ^ ((1 : ℝ) / 3) with hudef
  set v := (1 - s) ^ ((1 : ℝ) / 3) with hvdef
  have hu0 : 0 ≤ u := Real.rpow_nonneg hu _
  have hv0 : 0 ≤ v := Real.rpow_nonneg hv _
  have hu3 : u ^ 3 = 1 + s := by
    rw [hudef, ← Real.rpow_natCast, ← Real.rpow_mul hu]
    norm_num
  have hv3 : v ^ 3 = 1 - s := by
    rw [hvdef, ← Real.rpow_natCast, ← Real.rpow_mul hv]
    norm_num
  have hz : iscoZ1 s = 1 + u * v * (u + v) := by
    unfold iscoZ1
    rw [hp, Real.mul_rpow hu hv]
  rw [hz]
  constructor
  · have : 0 ≤ u * v * (u + v) := by positivity
    linarith
  · nlinarith [mul_nonneg (add_nonneg hu0 hv0) (sq_nonneg (u - v))]

theorem iscoZ2_nonneg (s : ℝ) : 0 ≤ iscoZ2 s := Real.sqrt_nonneg _

theorem iscoArg_nonneg {s : ℝ} (h0 : 0 ≤ s) (h1 : s ≤ 1) : 0 ≤ iscoArg s := by
  obtain ⟨ha, hb⟩ := iscoZ1_bounds h0 h1
  have := iscoZ2_nonneg s
  unfold iscoArg
  apply mul_nonneg
  · linarith
  · linarith

theorem getISCO_eq (bh : BlackHole) (h0 : 0 ≤ bh.m_spin) (h1 : bh.m_spin ≤ 1) :
    bh.getISCO = some (bh.m_schwarzschildRadius * 0.5 * iscoFactor bh.m_spin) := by
  have e1 := fpow_third_of_nonneg (x := 1.0 - bh.m_spin * bh.m_spin) (by norm_num; nlinarith)
  have e2 := fpow_third_of_nonneg (x := 1.0 + bh.m_spin) (by norm_num; linarith)
  have e3 := fpow_third_of_nonneg (x := 1.0 - bh.m_spin) (by norm_num; linarith)
  have hz1 : (1.0 : ℝ) + (1.0 - bh.m_spin * bh.m_spin) ^ ((1 : ℝ) / 3)
      * ((1.0 + bh.m_spin) ^ ((1 : ℝ) / 3) + (1.0 - bh.m_spin) ^ ((1 : ℝ) / 3))
      = iscoZ1 bh.m_spin := by
    unfold iscoZ1
    norm_num
  have e4 := fsqrt_of_nonneg
    (x := 3.0 * bh.m_spin * bh.m_spin + iscoZ1 bh.m_spin * iscoZ1 bh.m_spin)
    (by norm_num; nlinarith [mul_self_nonneg bh.m_spin, mul_self_nonneg (iscoZ1 bh.m_spin)])
  have hz2 : Real.sqrt (3.0 * bh.m_spin * bh.m_spin + iscoZ1 bh.m_spin * iscoZ1 bh.m_spin)
      = iscoZ2 bh.m_spin := by
    unfold iscoZ2
    norm_num
  have e5 := fsqrt_of_nonneg
    (x := (3.0 - iscoZ1 bh.m_spin) * (3.0 + iscoZ1 bh.m_spin + 2.0 * iscoZ2 bh.m_spin))
    (by
      have := iscoArg_nonneg h0 h1
      unfold iscoArg at this
      norm_num
      exact this)
  unfold getISCO
  simp only [e1, e2, e3, hz1, e4, hz2, e5, Option.bind_eq_bind, Option.some_bind, Option.pure_def]
  unfold iscoFactor iscoArg
  norm_num

end BlackHole

/-! ## Monotonicity of the ISCO factor in the spin -/

namespace BlackHole

end BlackHole

/-! ## Claims -/

/-- C1: in every state reachable from the constructor through setMass, setSpin and
setPosition, the Schwarzschild radius is `max 1 (R mass)` for the documented policy `R`,
and the stored spin parameter is `spin * radius / 2`; moreover `BlackHole(10, 0)` has
Schwarzschild radius exactly 2. -/
theorem C1_derived_quantities_consistent (bh : BlackHole) (h : bh.Reachable) :
    bh.getSchwarzschildRadius = max 1 (specRadius bh.m_mass)
      ∧ bh.m_spinParameter = bh.m_spin * bh.getSchwarzschildRadius / 2
      ∧ (BlackHole.init 10 0).getSchwarzschildRadius = 2 := by
  have hi := h.inv
  refine ⟨?_, ?_, ?_⟩
  · unfold BlackHole.getSchwarzschildRadius
    rw [hi.radius_eq, fmax_eq_max, BlackHole.rawRadius_eq_spec, max_comm]
    norm_num
  · unfold BlackHole.getSchwarzschildRadius
    rw [hi.param_eq]
    norm_num
    ring
  · unfold BlackHole.getSchwarzschildRadius BlackHole.init
    rw [BlackHole.update_radius, fmax_eq_max]
    simp only [BlackHole.rawRadius]
    norm_num

theorem C1_derived_quantities_consistent_witness :
    ((BlackHole.init 10 0).setMass 25).Reachable
      ∧ ((BlackHole.init 10 0).setMass 25).getSchwarzschildRadius
          = max 1 (specRadius ((BlackHole.init 10 0).setMass 25).m_mass)
      ∧ ((BlackHole.init 10 0).setMass 25).m_spinParameter
          = ((BlackHole.init 10 0).setMass 25).m_spin
              * ((BlackHole.init 10 0).setMass 25).getSchwarzschildRadius / 2
      ∧ (BlackHole.init 10 0).getSchwarzschildRadius = 2 :=
  ⟨BlackHole.Reachable.setMass _ _ (BlackHole.Reachable.ctor _ _),
    C1_derived_quantities_consistent _
      (BlackHole.Reachable.setMass _ _ (BlackHole.Reachable.ctor _ _))⟩

theorem clamp_of_mem {v lo hi : ℝ} (h0 : lo ≤ v) (h1 : v ≤ hi) : clamp v lo hi = v := by
  unfold clamp
  rw [if_neg (not_lt.mpr h0), if_neg (not_lt.mpr h1)]

theorem BlackHole.init_spin_of_mem (mass : ℝ) {spin : ℝ} (h0 : 0 ≤ spin) (h1 : spin ≤ 0.998) :
    (BlackHole.init mass spin).m_spin = spin := by
  unfold BlackHole.init
  rw [BlackHole.update_spin]
  exact clamp_of_mem (by unfold MIN_SPIN; norm_num; exact h0) (by unfold MAX_SPIN; exact h1)

theorem iscoFactor_zero : BlackHole.iscoFactor 0 = 6 := by
  have hz1 : BlackHole.iscoZ1 0 = 3 := by
    unfold BlackHole.iscoZ1
    norm_num
  have hz2 : BlackHole.iscoZ2 0 = 3 := by
    unfold BlackHole.iscoZ2
    rw [hz1]
    have : (3 * 0 * 0 + 3 * 3 : ℝ) = 3 ^ 2 := by norm_num
    rw [this, Real.sqrt_sq (by norm_num)]
  unfold BlackHole.iscoFactor BlackHole.iscoArg
  rw [hz1, hz2]
  norm_num

/-- C2: a black hole whose spin is 0 has `getISCO() = 6 * (getSchwarzschildRadius() / 2)`,
which is exactly three times the Schwarzschild radius, whatever the mass. -/
theorem C2_isco_at_zero_spin (bh : BlackHole) (h : bh.m_spin = 0) :
    bh.getISCO = some (6 * (bh.getSchwarzschildRadius / 2))
      ∧ bh.getISCO = some (3 * bh.getSchwarzschildRadius) := by
  have e := BlackHole.getISCO_eq bh (by rw [h]) (by rw [h]; norm_num)
  rw [h, iscoFactor_zero] at e
  unfold BlackHole.getSchwarzschildRadius
  constructor
  · rw [e]
    congr 1
    norm_num
    ring
  · rw [e]
    congr 1
    norm_num
    ring

theorem C2_isco_at_zero_spin_witness :
    (BlackHole.init 6.5e9 0).m_spin = 0
      ∧ (BlackHole.init 6.5e9 0).getISCO
          = some (6 * ((BlackHole.init 6.5e9 0).getSchwarzschildRadius / 2))
      ∧ (BlackHole.init 6.5e9 0).getISCO
          = some (3 * (BlackHole.init 6.5e9 0).getSchwarzschildRadius) :=
  ⟨BlackHole.init_spin_of_mem _ (by norm_num) (by norm_num),
    C2_isco_at_zero_spin _ (BlackHole.init_spin_of_mem _ (by norm_num) (by norm_num))⟩

theorem BlackHole.eventHorizon_of_small_spin (bh : BlackHole) (theta : ℝ)
    (h : bh.m_spin < 0.01) :
    bh.getEventHorizonRadius theta = some bh.m_schwarzschildRadius := by
  unfold BlackHole.getEventHorizonRadius
  rw [if_pos h]

theorem BlackHole.eventHorizon_of_spin {bh : BlackHole} (hi : bh.Inv) (theta : ℝ)
    (h : 0.01 ≤ bh.m_spin) :
    ∃ r, bh.getEventHorizonRadius theta = some r ∧ r < bh.m_schwarzschildRadius := by
  have hrs := hi.radius_ge_one
  have hs1 := hi.spin_le
  have hM : 0 < bh.m_schwarzschildRadius * 0.5 := by norm_num; linarith
  have hs0 : 0 < bh.m_spin := by linarith
  have harg : 0 ≤ bh.m_schwarzschildRadius * 0.5 * (bh.m_schwarzschildRadius * 0.5)
      - bh.m_spinParameter * bh.m_spinParameter := by
    rw [hi.param_eq]
    have : 0 ≤ 1 - bh.m_spin * bh.m_spin := by nlinarith
    nlinarith [mul_nonneg (mul_nonneg hM.le hM.le) this]
  refine ⟨bh.m_schwarzschildRadius * 0.5 + Real.sqrt (bh.m_schwarzschildRadius * 0.5
      * (bh.m_schwarzschildRadius * 0.5) - bh.m_spinParameter * bh.m_spinParameter), ?_, ?_⟩
  · unfold BlackHole.getEventHorizonRadius
    rw [if_neg (not_lt.mpr h)]
    simp only [fsqrt_of_nonneg harg, Option.bind_eq_bind, Option.some_bind, Option.pure_def]
  · have hlt : Real.sqrt (bh.m_schwarzschildRadius * 0.5 * (bh.m_schwarzschildRadius * 0.5)
        - bh.m_spinParameter * bh.m_spinParameter) < bh.m_schwarzschildRadius * 0.5 := by
      rw [Real.sqrt_lt' hM, hi.param_eq]
      nlinarith [mul_pos (mul_pos hM hM) (mul_pos hs0 hs0)]
    norm_num at hlt ⊢
    linarith

theorem BlackHole.m87_mass : (BlackHole.init 6.5e9 0.9).m_mass = 6.5e9 := rfl

theorem BlackHole.m87_radius :
    (BlackHole.init 6.5e9 0.9).m_schwarzschildRadius
      = 2 + 0.4 * Real.logb 10 (6.5e9 / 10) ∧ 2 < (BlackHole.init 6.5e9 0.9).m_schwarzschildRadius := by
  have hlog : 0 < Real.logb 10 (6.5e9 / 10) := Real.logb_pos (by norm_num) (by norm_num)
  have e : (BlackHole.init 6.5e9 0.9).m_schwarzschildRadius
      = 2 + 0.4 * Real.logb 10 (6.5e9 / 10) := by
    unfold BlackHole.init
    rw [BlackHole.update_radius, fmax_eq_max, BlackHole.rawRadius_eq_spec]
    unfold specRadius
    rw [if_pos (by norm_num)]
    apply max_eq_left
    norm_num
    linarith
  refine ⟨e, ?_⟩
  rw [e]
  linarith

/-- C4: for every reachable state (spin clamped to [0, 0.998], any mass) the event-horizon
radius equals the Schwarzschild radius exactly when spin < 0.01 and is strictly smaller when
spin >= 0.01, so it never exceeds the Schwarzschild radius; for the M87 preset
`BlackHole(6.5e9, 0.9)` the Schwarzschild radius is the logarithmic-branch value, exceeds 2,
and the event horizon is strictly smaller than it. -/
theorem C4_event_horizon_vs_schwarzschild (bh : BlackHole) (h : bh.Reachable) (theta : ℝ) :
    (bh.getEventHorizonRadius theta = some bh.getSchwarzschildRadius ↔ bh.getSpin < 0.01)
      ∧ (0.01 ≤ bh.getSpin →
          ∃ r, bh.getEventHorizonRadius theta = some r ∧ r < bh.getSchwarzschildRadius)
      ∧ (∃ r, bh.getEventHorizonRadius theta = some r ∧ r ≤ bh.getSchwarzschildRadius)
      ∧ (10 < (BlackHole.init 6.5e9 0.9).getMass
          ∧ (BlackHole.init 6.5e9 0.9).getSchwarzschildRadius
              = 2 + 0.4 * Real.logb 10 ((BlackHole.init 6.5e9 0.9).getMass / 10)
          ∧ 2 < (BlackHole.init 6.5e9 0.9).getSchwarzschildRadius
          ∧ ∃ r, (BlackHole.init 6.5e9 0.9).getEventHorizonRadius 0 = some r
              ∧ r < (BlackHole.init 6.5e9 0.9).getSchwarzschildRadius) := by
  have hi := h.inv
  unfold BlackHole.getSchwarzschildRadius BlackHole.getSpin BlackHole.getMass
  refine ⟨⟨?_, BlackHole.eventHorizon_of_small_spin bh theta⟩, ?_, ?_, ?_, ?_, ?_, ?_⟩
  · intro he
    by_contra hn
    obtain ⟨r, hr, hlt⟩ := BlackHole.eventHorizon_of_spin hi theta (not_lt.mp hn)
    rw [he] at hr
    have := Option.some.inj hr
    linarith
  · exact BlackHole.eventHorizon_of_spin hi theta
  · by_cases hs : bh.m_spin < 0.01
    · exact ⟨_, BlackHole.eventHorizon_of_small_spin bh theta hs, le_refl _⟩
    · obtain ⟨r, hr, hlt⟩ := BlackHole.eventHorizon_of_spin hi theta (not_lt.mp hs)
      exact ⟨r, hr, hlt.le⟩
  · rw [BlackHole.m87_mass]
    norm_num
  · rw [BlackHole.m87_mass]
    exact BlackHole.m87_radius.1
  · exact BlackHole.m87_radius.2
  · apply BlackHole.eventHorizon_of_spin (BlackHole.Reachable.ctor _ _).inv
    rw [BlackHole.init_spin_of_mem _ (by norm_num) (by norm_num)]
    norm_num

theorem C4_event_horizon_vs_schwarzschild_witness :
    (BlackHole.init 6.5e9 0.9).Reachable
      ∧ ∃ r, (BlackHole.init 6.5e9 0.9).getEventHorizonRadius 0 = some r
          ∧ r ≤ (BlackHole.init 6.5e9 0.9).getSchwarzschildRadius :=
  ⟨BlackHole.Reachable.ctor _ _,
    (C4_event_horizon_vs_schwarzschild _ (BlackHole.Reachable.ctor _ _) 0).2.2.1⟩

theorem BlackHole.frameDragging_of_small_spin (bh : BlackHole) (r theta : ℝ)
    (h : bh.m_spin < 0.01) : bh.getFrameDraggingVelocity r theta = 0 := by
  unfold BlackHole.getFrameDraggingVelocity
  rw [if_pos h]
  norm_num

theorem BlackHole.frameDragging_of_spin (bh : BlackHole) (r theta : ℝ)
    (h : ¬ bh.m_spin < 0.01) :
    bh.getFrameDraggingVelocity r theta
      = if bh.frameDraggingDenominator r < 1e-6 then 0
        else 2 * (bh.m_schwarzschildRadius * 0.5) * bh.m_spinParameter * r
          / bh.frameDraggingDenominator r := by
  unfold BlackHole.getFrameDraggingVelocity BlackHole.frameDraggingDenominator
  rw [if_neg h]
  norm_num

theorem BlackHole.frameDraggingDenominator_eq (bh : BlackHole) (r : ℝ) :
    bh.frameDraggingDenominator r
      = r ^ 4 + bh.m_spinParameter ^ 2 * r ^ 2
        + 2 * (bh.getSchwarzschildRadius / 2) * bh.m_spinParameter ^ 2 * r := by
  unfold BlackHole.frameDraggingDenominator BlackHole.getSchwarzschildRadius
  norm_num
  ring

/-- C5: `getFrameDraggingVelocity(r, theta)` is exactly 0 when the spin is 0, and whenever the
spin is below 0.01, and whenever the denominator `r^4 + a^2 r^2 + 2 M a^2 r` is below 1e-6; in
every other case it is `2 M a r` divided by that denominator, which is then at least 1e-6
(`M = schwarzschildRadius / 2`, `a = spinParameter`). -/
theorem C5_frame_dragging_guards (bh : BlackHole) (r theta : ℝ) :
    (bh.getSpin = 0 → bh.getFrameDraggingVelocity r theta = 0)
      ∧ (bh.getSpin < 0.01 → bh.getFrameDraggingVelocity r theta = 0)
      ∧ (r ^ 4 + bh.m_spinParameter ^ 2 * r ^ 2
            + 2 * (bh.getSchwarzschildRadius / 2) * bh.m_spinParameter ^ 2 * r < 1e-6 →
          bh.getFrameDraggingVelocity r theta = 0)
      ∧ (¬ bh.getSpin < 0.01 →
          ¬ r ^ 4 + bh.m_spinParameter ^ 2 * r ^ 2
            + 2 * (bh.getSchwarzschildRadius / 2) * bh.m_spinParameter ^ 2 * r < 1e-6 →
          bh.getFrameDraggingVelocity r theta
              = 2 * (bh.getSchwarzschildRadius / 2) * bh.m_spinParameter * r
                / (r ^ 4 + bh.m_spinParameter ^ 2 * r ^ 2
                    + 2 * (bh.getSchwarzschildRadius / 2) * bh.m_spinParameter ^ 2 * r)
            ∧ 1e-6 ≤ r ^ 4 + bh.m_spinParameter ^ 2 * r ^ 2
                + 2 * (bh.getSchwarzschildRadius / 2) * bh.m_spinParameter ^ 2 * r) := by
  rw [← BlackHole.frameDraggingDenominator_eq]
  unfold BlackHole.getSpin
  refine ⟨?_, BlackHole.frameDragging_of_small_spin bh r theta, ?_, ?_⟩
  · intro h
    exact BlackHole.frameDragging_of_small_spin bh r theta (by rw [h]; norm_num)
  · intro hd
    by_cases hs : bh.m_spin < 0.01
    · exact BlackHole.frameDragging_of_small_spin bh r theta hs
    · rw [BlackHole.frameDragging_of_spin bh r theta hs, if_pos hd]
  · intro hs hd
    refine ⟨?_, not_lt.mp hd⟩
    rw [BlackHole.frameDragging_of_spin bh r theta hs, if_neg hd]
    unfold BlackHole.getSchwarzschildRadius
    norm_num
    ring

theorem BlackHole.init_ten_radius (spin : ℝ) :
    (BlackHole.init 10 spin).m_schwarzschildRadius = 2 := by
  unfold BlackHole.init
  rw [BlackHole.update_radius, fmax_eq_max]
  simp only [BlackHole.rawRadius]
  norm_num

theorem BlackHole.init_ten_half_param : (BlackHole.init 10 0.5).m_spinParameter = 0.5 := by
  have h := ((BlackHole.Reachable.ctor 10 0.5).inv).param_eq
  rw [BlackHole.init_ten_radius, BlackHole.init_spin_of_mem _ (by norm_num) (by norm_num)] at h
  rw [h]
  norm_num

theorem C5_frame_dragging_guards_witness :
    (BlackHole.init 10 0.5).getFrameDraggingVelocity 1 0 = 4 / 7 := by
  have h := (C5_frame_dragging_guards (BlackHole.init 10 0.5) 1 0).2.2.2
  unfold BlackHole.getSpin BlackHole.getSchwarzschildRadius at h
  rw [BlackHole.init_ten_radius, BlackHole.init_ten_half_param,
    BlackHole.init_spin_of_mem _ (by norm_num) (by norm_num)] at h
  rw [(h (by norm_num) (by norm_num)).1]
  norm_num

theorem BlackHole.frameDragging_bounds {bh : BlackHole} (hi : bh.Inv) (theta : ℝ)
    (hs : ¬ bh.m_spin < 0.01) {r : ℝ} (hr : 1 ≤ r) :
    0 ≤ bh.getFrameDraggingVelocity r theta
      ∧ bh.getFrameDraggingVelocity r theta
          ≤ 2 * (bh.m_schwarzschildRadius * 0.5) * bh.m_spinParameter / r := by
  have hM : 0 ≤ bh.m_schwarzschildRadius * 0.5 := by
    have := hi.radius_ge_one
    norm_num
    linarith
  have ha : 0 ≤ bh.m_spinParameter := by
    rw [hi.param_eq, mul_assoc]
    exact mul_nonneg hi.spin_nonneg hM
  have hC : 0 ≤ 2 * (bh.m_schwarzschildRadius * 0.5) * bh.m_spinParameter := by positivity
  have hr0 : 0 < r := by linarith
  have hr2 : 1 ≤ r * r := by nlinarith
  have hden : r * r ≤ bh.frameDraggingDenominator r := by
    unfold BlackHole.frameDraggingDenominator
    have h1 : r * r * 1 ≤ r * r * (r * r) := mul_le_mul_of_nonneg_left hr2 (by positivity)
    have h2 : 0 ≤ bh.m_spinParameter * bh.m_spinParameter * (r * r) := by positivity
    have h3 : 0 ≤ 2 * (bh.m_schwarzschildRadius * 0.5)
        * (bh.m_spinParameter * bh.m_spinParameter) * r := by positivity
    linarith
  have hdpos : 0 < bh.frameDraggingDenominator r := by linarith
  have hguard : ¬ bh.frameDraggingDenominator r < 1e-6 := by
    norm_num
    have : (1e-6 : ℝ) ≤ 1 := by norm_num
    norm_num at this
    linarith
  rw [BlackHole.frameDragging_of_spin bh r theta hs, if_neg hguard]
  constructor
  · exact div_nonneg (mul_nonneg hC hr0.le) hdpos.le
  · rw [div_le_div_iff₀ hdpos hr0]
    have := mul_le_mul_of_nonneg_left hden hC
    linarith

/-- C6: for every reachable state (any mass, spin clamped to [0, 0.998]) and every theta,
`getFrameDraggingVelocity(r, theta)` tends to 0 as `r` tends to plus infinity. -/
theorem C6_frame_dragging_vanishes_at_infinity (bh : BlackHole) (h : bh.Reachable)
    (theta : ℝ) :
    Filter.Tendsto (fun r : ℝ => bh.getFrameDraggingVelocity r theta) Filter.atTop (nhds 0) := by
  have hi := h.inv
  by_cases hs : bh.m_spin < 0.01
  · have hc : (fun r : ℝ => bh.getFrameDraggingVelocity r theta) = fun _ => (0 : ℝ) := by
      funext r
      exact BlackHole.frameDragging_of_small_spin bh r theta hs
    rw [hc]
    exact tendsto_const_nhds
  · have hup : Filter.Tendsto
        (fun r : ℝ => 2 * (bh.m_schwarzschildRadius * 0.5) * bh.m_spinParameter / r)
        Filter.atTop (nhds 0) :=
      tendsto_const_nhds.div_atTop Filter.tendsto_id
    refine tendsto_of_tendsto_of_tendsto_of_le_of_le' tendsto_const_nhds hup ?_ ?_
    · filter_upwards [Filter.eventually_ge_atTop (1 : ℝ)] with r hr
      exact (BlackHole.frameDragging_bounds hi theta hs hr).1
    · filter_upwards [Filter.eventually_ge_atTop (1 : ℝ)] with r hr
      exact (BlackHole.frameDragging_bounds hi theta hs hr).2

theorem C6_frame_dragging_vanishes_at_infinity_witness :
    (BlackHole.init 6.5e9 0.9).Reachable
      ∧ Filter.Tendsto (fun r : ℝ => (BlackHole.init 6.5e9 0.9).getFrameDraggingVelocity r 0)
          Filter.atTop (nhds 0) :=
  ⟨BlackHole.Reachable.ctor _ _,
    C6_frame_dragging_vanishes_at_infinity _ (BlackHole.Reachable.ctor _ _) 0⟩

theorem BlackHole.m87_spinParameter_gt_one : 1 < (BlackHole.init 6.5e9 0.9).m_spinParameter := by
  have hi := (BlackHole.Reachable.ctor 6.5e9 0.9).inv
  have hlog : 1 ≤ Real.logb 10 (6.5e9 / 10) := by
    rw [Real.le_logb_iff_rpow_le (by norm_num) (by norm_num)]
    norm_num
  have hr := BlackHole.m87_radius.1
  rw [hi.param_eq, BlackHole.init_spin_of_mem _ (by norm_num) (by norm_num), hr]
  norm_num
  linarith

/-- C7, evaluated on the M87 preset `BlackHole(6.5e9, 0.9)`: the state is reachable, its spin
is at least 0.01, the argument `-spinParameter` handed to `acos` is below -1, and
`getPhotonSphereRadius()` therefore has no real value (NaN). In general, in a reachable state
with spin at least 0.01 the getter has a real value exactly when `spinParameter <= 1`. -/
theorem C7_photon_sphere_nan_on_m87 :
    (BlackHole.init 6.5e9 0.9).Reachable
      ∧ 0.01 ≤ (BlackHole.init 6.5e9 0.9).getSpin
      ∧ -(BlackHole.init 6.5e9 0.9).m_spinParameter < -1
      ∧ facos (-(BlackHole.init 6.5e9 0.9).m_spinParameter) = none
      ∧ (BlackHole.init 6.5e9 0.9).getPhotonSphereRadius = none
      ∧ ∀ bh : BlackHole, bh.Reachable → 0.01 ≤ bh.getSpin →
          (bh.getPhotonSphereRadius.isSome = true ↔ bh.m_spinParameter ≤ 1) := by
  have ha := BlackHole.m87_spinParameter_gt_one
  have hs : (BlackHole.init 6.5e9 0.9).m_spin = 0.9 :=
    BlackHole.init_spin_of_mem _ (by norm_num) (by norm_num)
  have hac : facos (-(BlackHole.init 6.5e9 0.9).m_spinParameter) = none := by
    unfold facos
    rw [if_neg]
    intro hh
    linarith [hh.1]
  refine ⟨BlackHole.Reachable.ctor _ _, ?_, by linarith, hac, ?_, ?_⟩
  · unfold BlackHole.getSpin
    rw [hs]
    norm_num
  · unfold BlackHole.getPhotonSphereRadius
    rw [if_neg (by rw [hs]; norm_num)]
    simp only [hac, Option.bind_eq_bind, Option.none_bind]
  · intro bh hr hspin
    have hi := hr.inv
    have hrad := hi.radius_ge_one
    have hpar : 0 ≤ bh.m_spinParameter := by
      rw [hi.param_eq]
      have := hi.spin_nonneg
      positivity
    unfold BlackHole.getSpin at hspin
    unfold BlackHole.getPhotonSphereRadius facos
    rw [if_neg (not_lt.mpr hspin)]
    by_cases hle : bh.m_spinParameter ≤ 1
    · have hdom : -1 ≤ -bh.m_spinParameter ∧ -bh.m_spinParameter ≤ 1 :=
        ⟨by linarith, by linarith⟩
      simp only [if_pos hdom, Option.bind_eq_bind, Option.some_bind, Option.pure_def,
        Option.isSome_some, hle]
    · have hdom : ¬ (-1 ≤ -bh.m_spinParameter ∧ -bh.m_spinParameter ≤ 1) := fun hh =>
        hle (by linarith [hh.1])
      simp only [if_neg hdom, Option.bind_eq_bind, Option.none_bind, Option.isSome_none, hle]
      simp

theorem BlackHole.Inv.horizon_arg_nonneg {bh : BlackHole} (hi : bh.Inv) :
    0 ≤ (bh.m_schwarzschildRadius * 0.5) * (bh.m_schwarzschildRadius * 0.5)
      - bh.m_spinParameter * bh.m_spinParameter := by
  have hs0 := hi.spin_nonneg
  have hs1 := hi.spin_le
  rw [hi.param_eq]
  have h1 : 0 ≤ 1 - bh.m_spin * bh.m_spin := by nlinarith
  have h2 : 0 ≤ (bh.m_schwarzschildRadius * 0.5) * (bh.m_schwarzschildRadius * 0.5) :=
    mul_self_nonneg _
  nlinarith [mul_nonneg h2 h1]

theorem BlackHole.Inv.ergosphere_arg_nonneg {bh : BlackHole} (hi : bh.Inv) (theta : ℝ) :
    0 ≤ (bh.m_schwarzschildRadius * 0.5) * (bh.m_schwarzschildRadius * 0.5)
      - bh.m_spinParameter * bh.m_spinParameter * Real.cos theta * Real.cos theta := by
  have h := hi.horizon_arg_nonneg
  have hc : Real.cos theta * Real.cos theta ≤ 1 := by
    nlinarith [Real.cos_sq_le_one theta]
  have ha : 0 ≤ bh.m_spinParameter * bh.m_spinParameter := mul_self_nonneg _
  nlinarith [mul_nonneg ha (sub_nonneg.mpr hc)]

/-- C8: in every reachable state and for every theta, each square-root argument evaluated by
the getters is non-negative: `3*spin^2 + Z1^2` and `(3 - Z1)*(3 + Z1 + 2*Z2)` in getISCO
(and the cube-root bases `1 - spin^2`, `1 + spin`, `1 - spin`), `M^2 - a^2` in
getEventHorizonRadius and `M^2 - a^2*cos^2(theta)` in getErgosphereRadius; accordingly the
three getters return a real value. -/
theorem C8_sqrt_arguments_nonneg (bh : BlackHole) (h : bh.Reachable) (theta : ℝ) :
    0 ≤ 1 - bh.m_spin ^ 2 ∧ 0 ≤ 1 + bh.m_spin ∧ 0 ≤ 1 - bh.m_spin
      ∧ 0 ≤ 3 * bh.m_spin ^ 2 + BlackHole.iscoZ1 bh.m_spin ^ 2
      ∧ 0 ≤ (3 - BlackHole.iscoZ1 bh.m_spin)
          * (3 + BlackHole.iscoZ1 bh.m_spin + 2 * BlackHole.iscoZ2 bh.m_spin)
      ∧ 0 ≤ (bh.m_schwarzschildRadius / 2) ^ 2 - bh.m_spinParameter ^ 2
      ∧ 0 ≤ (bh.m_schwarzschildRadius / 2) ^ 2 - bh.m_spinParameter ^ 2 * Real.cos theta ^ 2
      ∧ bh.getISCO = some (bh.m_schwarzschildRadius * 0.5 * BlackHole.iscoFactor bh.m_spin)
      ∧ (bh.getEventHorizonRadius theta).isSome = true
      ∧ (bh.getErgosphereRadius theta).isSome = true := by
  have hi := h.inv
  have hs0 := hi.spin_nonneg
  have hs1 := hi.spin_le
  have hs1' : bh.m_spin ≤ 1 := by linarith
  have hE := hi.horizon_arg_nonneg
  have hG := hi.ergosphere_arg_nonneg theta
  refine ⟨by nlinarith, by linarith, by linarith, by positivity, ?_, ?_, ?_,
    BlackHole.getISCO_eq bh hs0 hs1', ?_, ?_⟩
  · exact BlackHole.iscoArg_nonneg hs0 hs1'
  · norm_num at hE ⊢
    nlinarith
  · norm_num at hG ⊢
    nlinarith
  · unfold BlackHole.getEventHorizonRadius
    split_ifs
    · rfl
    · simp only [fsqrt_of_nonneg hE, Option.bind_eq_bind, Option.some_bind, Option.pure_def,
        Option.isSome_some]
  · unfold BlackHole.getErgosphereRadius
    split_ifs
    · rfl
    · simp only [fsqrt_of_nonneg hG, Option.bind_eq_bind, Option.some_bind, Option.pure_def,
        Option.isSome_some]

theorem C8_sqrt_arguments_nonneg_witness :
    (BlackHole.init 6.5e9 0.9).Reachable
      ∧ 0 ≤ ((BlackHole.init 6.5e9 0.9).m_schwarzschildRadius / 2) ^ 2
          - (BlackHole.init 6.5e9 0.9).m_spinParameter ^ 2
      ∧ ((BlackHole.init 6.5e9 0.9).getErgosphereRadius 0).isSome = true :=
  ⟨BlackHole.Reachable.ctor _ _,
    (C8_sqrt_arguments_nonneg _ (BlackHole.Reachable.ctor _ _) 0).2.2.2.2.2.1,
    (C8_sqrt_arguments_nonneg _ (BlackHole.Reachable.ctor _ _) 0).2.2.2.2.2.2.2.2.2⟩

/-- C9, evaluated on `BlackHole(-5, 0)`: the constructor stores the mass it is given without
the 0.1 floor, so this reachable state has `getMass() = -5`, which is not positive; the
sibling path `setMass` does apply the floor for every argument. -/
theorem C9_constructor_mass_not_clamped :
    (BlackHole.init (-5) 0).Reachable
      ∧ (BlackHole.init (-5) 0).getMass = -5
      ∧ ¬ 0 < (BlackHole.init (-5) 0).getMass
      ∧ ∀ (bh : BlackHole) (mass : ℝ), 0.1 ≤ (bh.setMass mass).getMass := by
  refine ⟨BlackHole.Reachable.ctor _ _, rfl, ?_, ?_⟩
  · have : (BlackHole.init (-5) 0).getMass = -5 := rfl
    rw [this]
    norm_num
  · intro bh mass
    have : (bh.setMass mass).getMass = fmax 0.1 mass := rfl
    rw [this, fmax_eq_max]
    exact le_max_left _ _

theorem BlackHole.iscoZ2_le_four {s : ℝ} (h0 : 0 ≤ s) (h1 : s ≤ 1) : iscoZ2 s ≤ 4 := by
  obtain ⟨ha, hb⟩ := iscoZ1_bounds h0 h1
  unfold iscoZ2
  rw [Real.sqrt_le_left (by norm_num)]
  nlinarith

theorem BlackHole.iscoFactor_pos {s : ℝ} (h0 : 0 ≤ s) (h1 : s ≤ 1) : 0 < iscoFactor s := by
  obtain ⟨ha, hb⟩ := iscoZ1_bounds h0 h1
  have hz := iscoZ2_nonneg s
  have hlt : Real.sqrt (iscoArg s) < 3 + iscoZ2 s := by
    rw [Real.sqrt_lt' (by linarith)]
    unfold iscoArg
    nlinarith [mul_pos (show 0 < iscoZ1 s + iscoZ2 s by linarith)
      (show 0 < iscoZ1 s + iscoZ2 s by linarith)]
  unfold iscoFactor
  linarith

theorem BlackHole.iscoFactor_le_seven {s : ℝ} (h0 : 0 ≤ s) (h1 : s ≤ 1) : iscoFactor s ≤ 7 := by
  have hz := iscoZ2_le_four h0 h1
  have hd := Real.sqrt_nonneg (iscoArg s)
  unfold iscoFactor
  linarith

/-- C10: for every reachable black hole `bh` (so for every pair of constructor arguments),
the disk constructed on `bh` exists and has `innerRadius = bh.getISCO()`,
`outerRadius = 15 * bh.getSchwarzschildRadius()`, thickness 0.5 and rotation speed 1; it
therefore satisfies `0 < innerRadius < outerRadius` with non-negative thickness and
rotation speed. -/
theorem C10_disk_constructor (bh : BlackHole) (h : bh.Reachable) :
    ∃ d : AccretionDisk, AccretionDisk.init bh = some d
      ∧ bh.getISCO = some d.getInnerRadius
      ∧ d.getOuterRadius = 15 * bh.getSchwarzschildRadius
      ∧ d.getThickness = 0.5 ∧ d.getRotationSpeed = 1
      ∧ 0 < d.getInnerRadius ∧ d.getInnerRadius < d.getOuterRadius
      ∧ 0 ≤ d.getThickness ∧ 0 ≤ d.getRotationSpeed := by
  have hi := h.inv
  have hs0 := hi.spin_nonneg
  have hs1 : bh.m_spin ≤ 1 := by linarith [hi.spin_le]
  have hr := hi.radius_ge_one
  have e := BlackHole.getISCO_eq bh hs0 hs1
  have hf0 := BlackHole.iscoFactor_pos hs0 hs1
  have hf7 := BlackHole.iscoFactor_le_seven hs0 hs1
  refine ⟨{ m_innerRadius := bh.m_schwarzschildRadius * 0.5 * BlackHole.iscoFactor bh.m_spin
            m_outerRadius := bh.getSchwarzschildRadius * 15.0
            m_thickness := 0.5
            m_inclination := 0.0
            m_rotationSpeed := 1.0
            m_peakTemperature := 100000.0 }, ?_, ?_, ?_, ?_, ?_, ?_, ?_, ?_, ?_⟩
  · unfold AccretionDisk.init
    simp only [e, Option.bind_eq_bind, Option.some_bind, Option.pure_def]
  · exact e
  · unfold AccretionDisk.getOuterRadius
    norm_num
    ring
  · rfl
  · unfold AccretionDisk.getRotationSpeed
    norm_num
  · unfold AccretionDisk.getInnerRadius
    have : 0 < bh.m_schwarzschildRadius * 0.5 := by norm_num; linarith
    exact mul_pos this hf0
  · unfold AccretionDisk.getInnerRadius AccretionDisk.getOuterRadius
      BlackHole.getSchwarzschildRadius
    norm_num
    nlinarith
  · unfold AccretionDisk.getThickness
    norm_num
  · unfold AccretionDisk.getRotationSpeed
    norm_num

theorem C10_disk_constructor_witness :
    (BlackHole.init 10 0).Reachable
      ∧ ∃ d : AccretionDisk, AccretionDisk.init (BlackHole.init 10 0) = some d
          ∧ (BlackHole.init 10 0).getISCO = some d.getInnerRadius
          ∧ d.getOuterRadius = 15 * (BlackHole.init 10 0).getSchwarzschildRadius
          ∧ d.getThickness = 0.5 ∧ d.getRotationSpeed = 1
          ∧ 0 < d.getInnerRadius ∧ d.getInnerRadius < d.getOuterRadius
          ∧ 0 ≤ d.getThickness ∧ 0 ≤ d.getRotationSpeed :=
  ⟨BlackHole.Reachable.ctor _ _, C10_disk_constructor _ (BlackHole.Reachable.ctor _ _)⟩

/-! ## AccretionDisk: constructor and setters -/

theorem AccretionDisk.init_eq {bh : BlackHole} (hi : bh.Inv) :
    AccretionDisk.init bh = some
      { m_innerRadius := bh.m_schwarzschildRadius * 0.5 * BlackHole.iscoFactor bh.m_spin
        m_outerRadius := bh.getSchwarzschildRadius * 15.0
        m_thickness := 0.5
        m_inclination := 0.0
        m_rotationSpeed := 1.0
        m_peakTemperature := 100000.0 } := by
  have e := BlackHole.getISCO_eq bh hi.spin_nonneg (by linarith [hi.spin_le])
  unfold AccretionDisk.init
  simp only [e, Option.bind_eq_bind, Option.some_bind, Option.pure_def]

/-- The disk constructed on `BlackHole(10, 0)`. -/
theorem AccretionDisk.init_ten :
    AccretionDisk.init (BlackHole.init 10 0) = some
      { m_innerRadius := 6
        m_outerRadius := 30
        m_thickness := 0.5
        m_inclination := 0.0
        m_rotationSpeed := 1.0
        m_peakTemperature := 100000.0 } := by
  rw [AccretionDisk.init_eq (BlackHole.Reachable.ctor 10 0).inv]
  unfold BlackHole.getSchwarzschildRadius
  rw [BlackHole.init_ten_radius, BlackHole.init_spin_of_mem _ (by norm_num) (by norm_num),
    iscoFactor_zero]
  norm_num

theorem fpow_of_pos {x : ℝ} (h : 0 < x) (y : ℝ) : fpow x y = some (x ^ y) := by
  unfold fpow
  have h1 : ¬ (x < 0 ∧ ¬ ∃ n : ℤ, (n : ℝ) = y) := fun hh => absurd hh.1 (not_lt.mpr h.le)
  have h2 : ¬ (x = 0 ∧ y < 0) := fun hh => absurd hh.1 (ne_of_gt h)
  rw [if_neg h1, if_neg h2]

theorem fdiv_of_ne {x y : ℝ} (h : y ≠ 0) : fdiv x y = some (x / y) := by
  unfold fdiv
  rw [if_neg h]

theorem AccretionDisk.getTemperature_of_lt (d : AccretionDisk) {r : ℝ}
    (h : r < d.m_innerRadius) : d.getTemperature r = some 0 := by
  unfold AccretionDisk.getTemperature
  rw [if_pos h]
  norm_num

theorem AccretionDisk.getTemperature_of_ge (d : AccretionDisk) {r : ℝ}
    (hi : 0 < d.m_innerRadius) (h : d.m_innerRadius ≤ r) :
    d.getTemperature r = some (d.powerLaw r * (0.9 + 0.2 * Real.sin (10 * r))) := by
  have hr : 0 < r := lt_of_lt_of_le hi h
  have hq : 0 < d.m_innerRadius / r := div_pos hi hr
  unfold AccretionDisk.getTemperature AccretionDisk.powerLaw
  rw [if_neg (not_lt.mpr h)]
  simp only [fdiv_of_ne (ne_of_gt hr), fpow_of_pos hq, Option.bind_eq_bind, Option.some_bind,
    Option.pure_def]
  have e : r * (10.0 : ℝ) = 10 * r := by
    norm_num
    ring
  rw [e]

theorem AccretionDisk.powerLaw_strictAnti (d : AccretionDisk) (hi : 0 < d.m_innerRadius)
    (hp : 0 < d.m_peakTemperature) :
    StrictAntiOn d.powerLaw (Set.Ici d.m_innerRadius) := by
  intro a ha b hb hab
  have ha0 : 0 < a := lt_of_lt_of_le hi ha
  have hb0 : 0 < b := lt_of_lt_of_le hi hb
  unfold AccretionDisk.powerLaw
  apply mul_lt_mul_of_pos_left _ hp
  apply Real.rpow_lt_rpow (div_pos hi hb0).le _ (by norm_num)
  exact div_lt_div_of_pos_left hi ha0 hab

/-- C13: for a disk with `innerRadius > 0` and `peakTemperature > 0`, `getTemperature(r)` is 0
for every `r < innerRadius`, equals `P(r) * (0.9 + 0.2 * sin(10 r))` for every
`r >= innerRadius`, and the power-law factor `P(r) = peakTemperature * (innerRadius / r)^0.75`
is strictly decreasing on `[innerRadius, infinity)`. -/
theorem C13_temperature_profile (d : AccretionDisk) (hi : 0 < d.getInnerRadius)
    (hp : 0 < d.m_peakTemperature) :
    (∀ r, r < d.getInnerRadius → d.getTemperature r = some 0)
      ∧ (∀ r, d.getInnerRadius ≤ r →
          d.getTemperature r
            = some (d.m_peakTemperature * (d.getInnerRadius / r) ^ (0.75 : ℝ)
                * (0.9 + 0.2 * Real.sin (10 * r))))
      ∧ (∀ r1 r2, d.getInnerRadius ≤ r1 → r1 < r2 →
          d.m_peakTemperature * (d.getInnerRadius / r2) ^ (0.75 : ℝ)
            < d.m_peakTemperature * (d.getInnerRadius / r1) ^ (0.75 : ℝ)) := by
  unfold AccretionDisk.getInnerRadius at *
  refine ⟨fun r hr => d.getTemperature_of_lt hr, fun r hr => d.getTemperature_of_ge hi hr, ?_⟩
  intro r1 r2 h1 h12
  exact d.powerLaw_strictAnti hi hp h1 (le_trans h1 h12.le) h12

theorem C13_temperature_profile_witness :
    (0 : ℝ) < (AccretionDisk.mk 3 20 0.5 0 1 100000).getInnerRadius
      ∧ (0 : ℝ) < (AccretionDisk.mk 3 20 0.5 0 1 100000).m_peakTemperature
      ∧ (AccretionDisk.mk 3 20 0.5 0 1 100000).getTemperature 2 = some 0
      ∧ (AccretionDisk.mk 3 20 0.5 0 1 100000).getTemperature 3
          = some ((AccretionDisk.mk 3 20 0.5 0 1 100000).m_peakTemperature
              * ((AccretionDisk.mk 3 20 0.5 0 1 100000).getInnerRadius / 3) ^ (0.75 : ℝ)
              * (0.9 + 0.2 * Real.sin (10 * 3))) :=
  ⟨by unfold AccretionDisk.getInnerRadius; norm_num, by norm_num,
    (C13_temperature_profile (AccretionDisk.mk 3 20 0.5 0 1 100000)
      (by unfold AccretionDisk.getInnerRadius; norm_num) (by norm_num)).1 2
      (by unfold AccretionDisk.getInnerRadius; norm_num),
    (C13_temperature_profile (AccretionDisk.mk 3 20 0.5 0 1 100000)
      (by unfold AccretionDisk.getInnerRadius; norm_num) (by norm_num)).2.1 3
      (by unfold AccretionDisk.getInnerRadius; norm_num)⟩

/-! ## AccretionDisk: orbital velocity -/

theorem AccretionDisk.getVelocity_eq (d : AccretionDisk) (bh : BlackHole) {r : ℝ} (phi : ℝ)
    (hr : r ≠ 0) (hq : 0 ≤ bh.m_schwarzschildRadius * 0.5 / r) :
    d.getVelocity bh r phi
      = some ⟨-Real.sin phi * (Real.sqrt (bh.m_schwarzschildRadius * 0.5 / r) * d.m_rotationSpeed),
          0, Real.cos phi * (Real.sqrt (bh.m_schwarzschildRadius * 0.5 / r) * d.m_rotationSpeed)⟩ := by
  unfold AccretionDisk.getVelocity BlackHole.getSchwarzschildRadius
  simp only [fdiv_of_ne hr, fsqrt_of_nonneg hq, Option.bind_eq_bind, Option.some_bind,
    Option.pure_def]
  norm_num

theorem Vec3.length_tangential (phi v : ℝ) :
    Vec3.length ⟨-Real.sin phi * v, 0, Real.cos phi * v⟩ = |v| := by
  unfold Vec3.length Vec3.dot
  have e : -Real.sin phi * v * (-Real.sin phi * v) + 0 * 0 + Real.cos phi * v * (Real.cos phi * v)
      = v ^ 2 := by
    have := Real.sin_sq_add_cos_sq phi
    linear_combination v ^ 2 * this
  simp only [e]
  exact Real.sqrt_sq_eq_abs v

/-- C14: for every radius `r > 0`, every angle `phi` and every black hole with positive
Schwarzschild radius, `getVelocity(r, phi)` has y-component 0, is orthogonal to the radial
direction `(cos phi, 0, sin phi)`, and has Euclidean length
`sqrt((schwarzschildRadius / 2) / r) * |rotationSpeed|`. -/
theorem C14_velocity_tangential (d : AccretionDisk) (bh : BlackHole) (r phi : ℝ)
    (hr : 0 < r) (hrs : 0 < bh.getSchwarzschildRadius) :
    ∃ v : Vec3, d.getVelocity bh r phi = some v
      ∧ v.y = 0
      ∧ v.dot ⟨Real.cos phi, 0, Real.sin phi⟩ = 0
      ∧ v.length = Real.sqrt ((bh.getSchwarzschildRadius / 2) / r) * |d.getRotationSpeed| := by
  unfold BlackHole.getSchwarzschildRadius at hrs
  have hq : 0 ≤ bh.m_schwarzschildRadius * 0.5 / r := by
    apply div_nonneg _ hr.le
    norm_num
    linarith
  refine ⟨_, d.getVelocity_eq bh phi (ne_of_gt hr) hq, rfl, ?_, ?_⟩
  · unfold Vec3.dot
    ring
  · rw [Vec3.length_tangential, abs_mul, abs_of_nonneg (Real.sqrt_nonneg _)]
    unfold BlackHole.getSchwarzschildRadius AccretionDisk.getRotationSpeed
    have e : bh.m_schwarzschildRadius * 0.5 / r = bh.m_schwarzschildRadius / 2 / r := by
      norm_num
      ring
    rw [e]

theorem C14_velocity_tangential_witness :
    (0 : ℝ) < 8 ∧ 0 < (BlackHole.init 10 0).getSchwarzschildRadius
      ∧ ∃ v : Vec3, (AccretionDisk.mk 6 30 0.5 0 1 100000).getVelocity (BlackHole.init 10 0) 8 0
            = some v
          ∧ v.y = 0
          ∧ v.dot ⟨Real.cos 0, 0, Real.sin 0⟩ = 0
          ∧ v.length = Real.sqrt (((BlackHole.init 10 0).getSchwarzschildRadius / 2) / 8)
              * |(AccretionDisk.mk 6 30 0.5 0 1 100000).getRotationSpeed| :=
  ⟨by norm_num,
    by unfold BlackHole.getSchwarzschildRadius; rw [BlackHole.init_ten_radius]; norm_num,
    C14_velocity_tangential _ _ 8 0 (by norm_num)
      (by unfold BlackHole.getSchwarzschildRadius; rw [BlackHole.init_ten_radius]; norm_num)⟩

/-! ## AccretionDisk: Doppler factor -/

theorem clamp_mem (v : ℝ) {lo hi : ℝ} (h : lo ≤ hi) :
    lo ≤ clamp v lo hi ∧ clamp v lo hi ≤ hi := by
  unfold clamp
  split_ifs with h1 h2
  · exact ⟨le_refl _, h⟩
  · exact ⟨h, le_refl _⟩
  · exact ⟨not_lt.mp h1, not_lt.mp h2⟩

theorem AccretionDisk.getDopplerFactor_outside (d : AccretionDisk) (bh : BlackHole)
    (position observerDir : Vec3)
    (h : Real.sqrt (position.x ^ 2 + position.z ^ 2) < d.getInnerRadius
      ∨ Real.sqrt (position.x ^ 2 + position.z ^ 2) > d.getOuterRadius) :
    d.getDopplerFactor bh position observerDir = some 1 := by
  unfold AccretionDisk.getInnerRadius AccretionDisk.getOuterRadius at h
  rw [pow_two, pow_two] at h
  unfold AccretionDisk.getDopplerFactor Vec2.length
  simp only [if_pos h]
  norm_num

theorem AccretionDisk.getDopplerFactor_range (d : AccretionDisk) (bh : BlackHole)
    (position observerDir : Vec3) (x : ℝ)
    (hx : d.getDopplerFactor bh position observerDir = some x)
    (h : ¬ (Real.sqrt (position.x ^ 2 + position.z ^ 2) < d.getInnerRadius
      ∨ Real.sqrt (position.x ^ 2 + position.z ^ 2) > d.getOuterRadius)) :
    0.1 ≤ x ∧ x ≤ 10 := by
  unfold AccretionDisk.getInnerRadius AccretionDisk.getOuterRadius at h
  rw [pow_two, pow_two] at h
  unfold AccretionDisk.getDopplerFactor Vec2.length at hx
  simp only [if_neg h, Option.bind_eq_bind, Option.pure_def] at hx
  obtain ⟨velocity, -, hx⟩ := Option.bind_eq_some.mp hx
  obtain ⟨motionDir, -, hx⟩ := Option.bind_eq_some.mp hx
  split_ifs at hx with h0
  · have := Option.some.inj hx
    rw [← this]
    norm_num
  · have := Option.some.inj hx
    rw [← this]
    have hc := clamp_mem
      (1.0 / (1.0 / Real.sqrt (1.0 - fmin (velocity.length / SPEED_OF_LIGHT) 0.99
          * fmin (velocity.length / SPEED_OF_LIGHT) 0.99)
        * (1.0 - fmin (velocity.length / SPEED_OF_LIGHT) 0.99 * motionDir.dot observerDir)))
      (show (0.1 : ℝ) ≤ 10.0 by norm_num)
    norm_num at hc ⊢
    exact hc

theorem AccretionDisk.getDopplerFactor_still_disk :
    ((AccretionDisk.mk 6 30 0.5 0.0 1.0 100000.0).setRotationSpeed 0).getDopplerFactor
      (BlackHole.init 10 0) ⟨10, 0, 0⟩ ⟨1, 0, 0⟩ = none := by
  have hrad : Real.sqrt ((10 : ℝ) * 10 + 0 * 0) = 10 := by
    have : ((10 : ℝ) * 10 + 0 * 0) = 10 ^ 2 := by norm_num
    rw [this, Real.sqrt_sq (by norm_num)]
  have hq : 0 ≤ (BlackHole.init 10 0).m_schwarzschildRadius * 0.5 / 10 := by
    rw [BlackHole.init_ten_radius]
    norm_num
  have hv := AccretionDisk.getVelocity_eq
    ((AccretionDisk.mk 6 30 0.5 0.0 1.0 100000.0).setRotationSpeed 0) (BlackHole.init 10 0)
    (atan2 0 10) (show (10 : ℝ) ≠ 0 by norm_num) hq
  have hzero : Vec3.normalize
      ⟨-Real.sin (atan2 0 10) * (Real.sqrt ((BlackHole.init 10 0).m_schwarzschildRadius * 0.5 / 10)
          * ((AccretionDisk.mk 6 30 0.5 0.0 1.0 100000.0).setRotationSpeed 0).m_rotationSpeed),
        0, Real.cos (atan2 0 10) * (Real.sqrt ((BlackHole.init 10 0).m_schwarzschildRadius * 0.5 / 10)
          * ((AccretionDisk.mk 6 30 0.5 0.0 1.0 100000.0).setRotationSpeed 0).m_rotationSpeed)⟩
      = none := by
    unfold Vec3.normalize Vec3.dot AccretionDisk.setRotationSpeed
    simp
  unfold AccretionDisk.getDopplerFactor Vec2.length
  simp only [hrad]
  rw [if_neg (by unfold AccretionDisk.setRotationSpeed; norm_num)]
  simp only [hv, hzero, Option.bind_eq_bind, Option.some_bind, Option.none_bind]

/-- C15, evaluated on a disk whose rotation speed was set to 0 (the disk of `BlackHole(10, 0)`
after `setRotationSpeed(0)`), at position `(10, 0, 0)` with observer direction `(1, 0, 0)`:
the state is reachable, the planar radius 10 lies in `[innerRadius, outerRadius] = [6, 30]`,
the orbital velocity is the zero vector, its normalisation is NaN and `getDopplerFactor` has
no real value, so it is not in `[0.1, 10]`. Outside the radial range the function does return
exactly 1, and whenever it returns a real value inside the range that value is in
`[0.1, 10]`. -/
theorem C15_doppler_nan_on_still_disk :
    ((AccretionDisk.mk 6 30 0.5 0.0 1.0 100000.0).setRotationSpeed 0).Reachable
      ∧ ¬ (Real.sqrt ((10 : ℝ) ^ 2 + (0 : ℝ) ^ 2)
            < ((AccretionDisk.mk 6 30 0.5 0.0 1.0 100000.0).setRotationSpeed 0).getInnerRadius
          ∨ Real.sqrt ((10 : ℝ) ^ 2 + (0 : ℝ) ^ 2)
            > ((AccretionDisk.mk 6 30 0.5 0.0 1.0 100000.0).setRotationSpeed 0).getOuterRadius)
      ∧ ((AccretionDisk.mk 6 30 0.5 0.0 1.0 100000.0).setRotationSpeed 0).getDopplerFactor
          (BlackHole.init 10 0) ⟨10, 0, 0⟩ ⟨1, 0, 0⟩ = none
      ∧ (∀ (d : AccretionDisk) (bh : BlackHole) (position observerDir : Vec3),
          (Real.sqrt (position.x ^ 2 + position.z ^ 2) < d.getInnerRadius
            ∨ Real.sqrt (position.x ^ 2 + position.z ^ 2) > d.getOuterRadius) →
          d.getDopplerFactor bh position observerDir = some 1)
      ∧ (∀ (d : AccretionDisk) (bh : BlackHole) (position observerDir : Vec3) (x : ℝ),
          d.getDopplerFactor bh position observerDir = some x →
          ¬ (Real.sqrt (position.x ^ 2 + position.z ^ 2) < d.getInnerRadius
            ∨ Real.sqrt (position.x ^ 2 + position.z ^ 2) > d.getOuterRadius) →
          0.1 ≤ x ∧ x ≤ 10) := by
  refine ⟨?_, ?_, AccretionDisk.getDopplerFactor_still_disk,
    AccretionDisk.getDopplerFactor_outside, AccretionDisk.getDopplerFactor_range⟩
  · exact AccretionDisk.Reachable.setRotationSpeed _ _
      (AccretionDisk.Reachable.ctor _ _ (BlackHole.Reachable.ctor 10 0) AccretionDisk.init_ten)
  · have hrad : Real.sqrt ((10 : ℝ) ^ 2 + (0 : ℝ) ^ 2) = 10 := by
      have : ((10 : ℝ) ^ 2 + (0 : ℝ) ^ 2) = 10 ^ 2 := by norm_num
      rw [this, Real.sqrt_sq (by norm_num)]
    rw [hrad]
    unfold AccretionDisk.getInnerRadius AccretionDisk.getOuterRadius
      AccretionDisk.setRotationSpeed
    norm_num

/-! ## AccretionDisk: ray intersection -/

/-- C16: `intersectRay(origin, direction)` returns true exactly when `|direction.y| >= 1e-6`,
`t = -origin.y / direction.y >= 0`, the hit point `origin + t * direction` has planar radius
within `[innerRadius, outerRadius]` and `|hit.y| <= thickness`; on success the outputs are that
`t`, `radius = sqrt(hit.x^2 + hit.z^2)` and `phi = atan2(hit.z, hit.x)`. Every ray meeting the
plane at a radius below `innerRadius` fails, as does origin `(0, 5, 0)`, direction
`(0, -1, 0)` on a disk with inner radius 3, outer radius 20 and thickness 0.5. -/
theorem C16_intersectRay_characterisation (d : AccretionDisk) (origin direction : Vec3) :
    ((d.intersectRay origin direction).isSome = true ↔
        1e-6 ≤ |direction.y| ∧ 0 ≤ -origin.y / direction.y
          ∧ d.getInnerRadius
              ≤ Real.sqrt ((origin.x + -origin.y / direction.y * direction.x) ^ 2
                  + (origin.z + -origin.y / direction.y * direction.z) ^ 2)
          ∧ Real.sqrt ((origin.x + -origin.y / direction.y * direction.x) ^ 2
                  + (origin.z + -origin.y / direction.y * direction.z) ^ 2)
              ≤ d.getOuterRadius
          ∧ |origin.y + -origin.y / direction.y * direction.y| ≤ d.getThickness)
      ∧ (∀ t radius phi, d.intersectRay origin direction = some (t, radius, phi) →
          t = -origin.y / direction.y
            ∧ radius = Real.sqrt ((origin.x + t * direction.x) ^ 2
                + (origin.z + t * direction.z) ^ 2)
            ∧ phi = atan2 (origin.z + t * direction.z) (origin.x + t * direction.x))
      ∧ (1e-6 ≤ |direction.y| → 0 ≤ -origin.y / direction.y →
          Real.sqrt ((origin.x + -origin.y / direction.y * direction.x) ^ 2
              + (origin.z + -origin.y / direction.y * direction.z) ^ 2) < d.getInnerRadius →
          d.intersectRay origin direction = none)
      ∧ (AccretionDisk.mk 3 20 0.5 0 1 100000).intersectRay ⟨0, 5, 0⟩ ⟨0, -1, 0⟩ = none := by
  have hx : ∀ t : ℝ, (origin.add (direction.smul t)).x = origin.x + t * direction.x := by
    intro t
    unfold Vec3.add Vec3.smul
    simp only
    ring
  have hy : ∀ t : ℝ, (origin.add (direction.smul t)).y = origin.y + t * direction.y := by
    intro t
    unfold Vec3.add Vec3.smul
    simp only
    ring
  have hz : ∀ t : ℝ, (origin.add (direction.smul t)).z = origin.z + t * direction.z := by
    intro t
    unfold Vec3.add Vec3.smul
    simp only
    ring
  have hdef : d.intersectRay origin direction
      = if |direction.y| < 1e-6 then none
        else if -origin.y / direction.y < 0 then none
        else if Real.sqrt ((origin.x + -origin.y / direction.y * direction.x) ^ 2
              + (origin.z + -origin.y / direction.y * direction.z) ^ 2) < d.m_innerRadius
            ∨ Real.sqrt ((origin.x + -origin.y / direction.y * direction.x) ^ 2
              + (origin.z + -origin.y / direction.y * direction.z) ^ 2) > d.m_outerRadius
          then none
        else if |origin.y + -origin.y / direction.y * direction.y| > d.m_thickness then none
        else some (-origin.y / direction.y,
          Real.sqrt ((origin.x + -origin.y / direction.y * direction.x) ^ 2
              + (origin.z + -origin.y / direction.y * direction.z) ^ 2),
          atan2 (origin.z + -origin.y / direction.y * direction.z)
            (origin.x + -origin.y / direction.y * direction.x)) := by
    unfold AccretionDisk.intersectRay Vec2.length
    simp only [hx, hy, hz, pow_two]
    norm_num
  unfold AccretionDisk.getInnerRadius AccretionDisk.getOuterRadius AccretionDisk.getThickness
  refine ⟨?_, ?_, ?_, ?_⟩
  · rw [hdef]
    split_ifs with h1 h2 h3 h4
    · simp only [Option.isSome_none, Bool.false_eq_true, false_iff]
      intro hh
      exact absurd h1 (not_lt.mpr hh.1)
    · simp only [Option.isSome_none, Bool.false_eq_true, false_iff]
      intro hh
      exact absurd h2 (not_lt.mpr hh.2.1)
    · simp only [Option.isSome_none, Bool.false_eq_true, false_iff]
      intro hh
      rcases h3 with h3 | h3
      · exact absurd h3 (not_lt.mpr hh.2.2.1)
      · exact absurd h3 (not_lt.mpr hh.2.2.2.1)
    · simp only [Option.isSome_none, Bool.false_eq_true, false_iff]
      intro hh
      exact absurd h4 (not_lt.mpr hh.2.2.2.2)
    · simp only [Option.isSome_some, true_iff]
      push_neg at h3
      exact ⟨not_lt.mp h1, not_lt.mp h2, h3.1, h3.2, not_lt.mp h4⟩
  · intro t radius phi hs
    rw [hdef] at hs
    split_ifs at hs
    have hs := Option.some.inj hs
    simp only [Prod.mk.injEq] at hs
    obtain ⟨ht, hr, hp⟩ := hs
    subst ht
    exact ⟨rfl, hr.symm, hp.symm⟩
  · intro h1 h2 h3
    rw [hdef, if_neg (not_lt.mpr h1), if_neg (not_lt.mpr h2), if_pos (Or.inl h3)]
  · unfold AccretionDisk.intersectRay Vec2.length Vec3.add Vec3.smul
    norm_num

theorem C16_intersectRay_characterisation_witness :
    (AccretionDisk.mk 3 20 0.5 0 1 100000).intersectRay ⟨5, 5, 0⟩ ⟨0, -1, 0⟩
      = some (5, 5, atan2 0 5) := by
  have h := (C16_intersectRay_characterisation (AccretionDisk.mk 3 20 0.5 0 1 100000)
    ⟨5, 5, 0⟩ ⟨0, -1, 0⟩).1
  have hrad : Real.sqrt (25 : ℝ) = 5 := by
    rw [show (25 : ℝ) = 5 ^ 2 by norm_num]
    exact Real.sqrt_sq (by norm_num)
  have hsome : ((AccretionDisk.mk 3 20 0.5 0 1 100000).intersectRay ⟨5, 5, 0⟩
      ⟨0, -1, 0⟩).isSome = true := by
    rw [h]
    unfold AccretionDisk.getInnerRadius AccretionDisk.getOuterRadius AccretionDisk.getThickness
    norm_num
    rw [hrad]
    norm_num
  obtain ⟨⟨t, radius, phi⟩, hv⟩ := Option.isSome_iff_exists.mp hsome
  obtain ⟨ht, hr, hp⟩ := (C16_intersectRay_characterisation
    (AccretionDisk.mk 3 20 0.5 0 1 100000) ⟨5, 5, 0⟩ ⟨0, -1, 0⟩).2.1 t radius phi hv
  rw [hv, ht, hr, hp, ht]
  norm_num
  exact hrad

/-! ## AccretionDisk: peak of the temperature profile -/

theorem AccretionDisk.powerLaw_le_peak (d : AccretionDisk) (hi : 0 < d.m_innerRadius)
    (hp : 0 ≤ d.m_peakTemperature) {r : ℝ} (hr : d.m_innerRadius ≤ r) :
    0 ≤ d.powerLaw r ∧ d.powerLaw r ≤ d.m_peakTemperature := by
  have hr0 : 0 < r := lt_of_lt_of_le hi hr
  have hq0 : 0 ≤ d.m_innerRadius / r := (div_pos hi hr0).le
  have hq1 : d.m_innerRadius / r ≤ 1 := (div_le_one hr0).mpr hr
  have hpow0 : 0 ≤ (d.m_innerRadius / r) ^ (0.75 : ℝ) := Real.rpow_nonneg hq0 _
  have hpow1 : (d.m_innerRadius / r) ^ (0.75 : ℝ) ≤ 1 :=
    Real.rpow_le_one hq0 hq1 (by norm_num)
  unfold AccretionDisk.powerLaw
  constructor
  · exact mul_nonneg hp hpow0
  · calc d.m_peakTemperature * (d.m_innerRadius / r) ^ (0.75 : ℝ)
        ≤ d.m_peakTemperature * 1 := mul_le_mul_of_nonneg_left hpow1 hp
      _ = d.m_peakTemperature := mul_one _

theorem AccretionDisk.powerLaw_inner (d : AccretionDisk) (hi : 0 < d.m_innerRadius) :
    d.powerLaw d.m_innerRadius = d.m_peakTemperature := by
  unfold AccretionDisk.powerLaw
  rw [div_self (ne_of_gt hi), Real.one_rpow, mul_one]

/-- C26 as stated fails: take the disk of `BlackHole(10, 0)` after `setInnerRadius(pi / 20)`.
At its inner edge the ripple factor is `0.9 + 0.2 * sin(pi / 2) = 1.1`, so
`getTemperature(innerRadius)` is `1.1 * peakTemperature = 110000`, which is neither equal to
nor at most `peakTemperature = 100000`. -/
theorem C26_ripple_exceeds_peak :
    ((AccretionDisk.mk 6 30 0.5 0.0 1.0 100000.0).setInnerRadius (Real.pi / 20)).Reachable
      ∧ 0 < ((AccretionDisk.mk 6 30 0.5 0.0 1.0 100000.0).setInnerRadius
          (Real.pi / 20)).getInnerRadius
      ∧ ((AccretionDisk.mk 6 30 0.5 0.0 1.0 100000.0).setInnerRadius
            (Real.pi / 20)).getTemperature
          ((AccretionDisk.mk 6 30 0.5 0.0 1.0 100000.0).setInnerRadius
            (Real.pi / 20)).getInnerRadius = some 110000
      ∧ ((AccretionDisk.mk 6 30 0.5 0.0 1.0 100000.0).setInnerRadius
          (Real.pi / 20)).m_peakTemperature = 100000
      ∧ ¬ ((110000 : ℝ) ≤ 100000) := by
  have hpos : (0 : ℝ) < Real.pi / 20 := by positivity
  have hi : 0 < ((AccretionDisk.mk 6 30 0.5 0.0 1.0 100000.0).setInnerRadius
      (Real.pi / 20)).m_innerRadius := hpos
  refine ⟨?_, hpos, ?_, ?_, by norm_num⟩
  · exact AccretionDisk.Reachable.setInnerRadius _ _
      (AccretionDisk.Reachable.ctor _ _ (BlackHole.Reachable.ctor 10 0) AccretionDisk.init_ten)
  · unfold AccretionDisk.getInnerRadius
    rw [AccretionDisk.getTemperature_of_ge _ hi (le_refl _), AccretionDisk.powerLaw_inner _ hi]
    have hs : Real.sin (10 * ((AccretionDisk.mk 6 30 0.5 0.0 1.0 100000.0).setInnerRadius
        (Real.pi / 20)).m_innerRadius) = 1 := by
      have e : 10 * ((AccretionDisk.mk 6 30 0.5 0.0 1.0 100000.0).setInnerRadius
          (Real.pi / 20)).m_innerRadius = Real.pi / 2 := by
        unfold AccretionDisk.setInnerRadius
        simp only
        ring
      rw [e, Real.sin_pi_div_two]
    rw [hs]
    unfold AccretionDisk.setInnerRadius
    norm_num
  · unfold AccretionDisk.setInnerRadius
    norm_num

/-- C26 amended: for a disk with `innerRadius > 0` and `peakTemperature >= 0`, every
`getTemperature(r)` is a real value at most `1.1 * peakTemperature`; the power-law factor
`P(r) = peakTemperature * (innerRadius / r)^0.75` is at most `peakTemperature` for
`r >= innerRadius` and equals it at `r = innerRadius`; and
`getTemperature(innerRadius) = peakTemperature * (0.9 + 0.2 * sin(10 * innerRadius))`. -/
theorem C26_temperature_bounded_by_ripple_peak (d : AccretionDisk) (hi : 0 < d.getInnerRadius)
    (hp : 0 ≤ d.m_peakTemperature) :
    (∀ r, ∃ T, d.getTemperature r = some T ∧ T ≤ 1.1 * d.m_peakTemperature)
      ∧ (∀ r, d.getInnerRadius ≤ r →
          d.m_peakTemperature * (d.getInnerRadius / r) ^ (0.75 : ℝ) ≤ d.m_peakTemperature)
      ∧ d.m_peakTemperature * (d.getInnerRadius / d.getInnerRadius) ^ (0.75 : ℝ)
          = d.m_peakTemperature
      ∧ d.getTemperature d.getInnerRadius
          = some (d.m_peakTemperature * (0.9 + 0.2 * Real.sin (10 * d.getInnerRadius))) := by
  unfold AccretionDisk.getInnerRadius at *
  refine ⟨?_, fun r hr => (d.powerLaw_le_peak hi hp hr).2, d.powerLaw_inner hi, ?_⟩
  · intro r
    by_cases hr : r < d.m_innerRadius
    · refine ⟨0, d.getTemperature_of_lt hr, ?_⟩
      norm_num
      exact hp
    · have hr := not_lt.mp hr
      refine ⟨_, d.getTemperature_of_ge hi hr, ?_⟩
      obtain ⟨h0, h1⟩ := d.powerLaw_le_peak hi hp hr
      have hs : Real.sin (10 * r) ≤ 1 := Real.sin_le_one _
      have hrip : 0.9 + 0.2 * Real.sin (10 * r) ≤ (1.1 : ℝ) := by
        norm_num
        linarith
      calc d.powerLaw r * (0.9 + 0.2 * Real.sin (10 * r))
          ≤ d.powerLaw r * 1.1 := mul_le_mul_of_nonneg_left hrip h0
        _ ≤ d.m_peakTemperature * 1.1 := mul_le_mul_of_nonneg_right h1 (by norm_num)
        _ = 1.1 * d.m_peakTemperature := mul_comm _ _
  · rw [d.getTemperature_of_ge hi (le_refl _), d.powerLaw_inner hi]

theorem C26_temperature_bounded_by_ripple_peak_witness :
    (0 : ℝ) < (AccretionDisk.mk 6 30 0.5 0 1 100000).getInnerRadius
      ∧ (0 : ℝ) ≤ (AccretionDisk.mk 6 30 0.5 0 1 100000).m_peakTemperature
      ∧ (AccretionDisk.mk 6 30 0.5 0 1 100000).getTemperature
            (AccretionDisk.mk 6 30 0.5 0 1 100000).getInnerRadius
          = some ((AccretionDisk.mk 6 30 0.5 0 1 100000).m_peakTemperature
              * (0.9 + 0.2 * Real.sin
                  (10 * (AccretionDisk.mk 6 30 0.5 0 1 100000).getInnerRadius))) :=
  ⟨by unfold AccretionDisk.getInnerRadius; norm_num, by norm_num,
    (C26_temperature_bounded_by_ripple_peak (AccretionDisk.mk 6 30 0.5 0 1 100000)
      (by unfold AccretionDisk.getInnerRadius; norm_num) (by norm_num)).2.2.2⟩

/-! ## Blackbody colour mapping -/

theorem glmClamp_mem (x : ℝ) {lo hi : ℝ} (h : lo ≤ hi) :
    lo ≤ glmClamp x lo hi ∧ glmClamp x lo hi ≤ hi := by
  unfold glmClamp fmin fmax
  split_ifs with h1 h2 h2
  · exact ⟨h, le_refl _⟩
  · exact ⟨le_refl _, h⟩
  · exact ⟨h, le_refl _⟩
  · exact ⟨not_lt.mp h1, not_lt.mp h2⟩

theorem glmClamp_le_of_le {x lo hi b : ℝ} (hx : x ≤ b) (hlo : lo ≤ b) :
    glmClamp x lo hi ≤ b := by
  unfold glmClamp fmin fmax
  split_ifs with h1 h2 h2
  · linarith
  · exact hlo
  · linarith
  · exact hx

/-- C29: for every input temperature the scaled temperature `clamp(T / 1000, 1, 40)` lies in
`[1, 40]`, hence is at most 66 and never at least 66: the red channel is exactly 1, the green
channel is the value of the `<= 66` branch, the blue channel is never taken from the `>= 66`
branch, and the blue channel is 0 whenever the input is at most 19000. -/
theorem C29_temperatureToRGB_low_branches (T : ℝ) :
    (temperatureToRGB T).x = 1
      ∧ (1 ≤ glmClamp (T / 1000) 1 40 ∧ glmClamp (T / 1000) 1 40 ≤ 40)
      ∧ glmClamp (T / 1000) 1 40 ≤ 66 ∧ ¬ (glmClamp (T / 1000) 1 40 ≥ 66)
      ∧ (temperatureToRGB T).y
          = glmClamp (0.39008157876 * Real.log (glmClamp (T / 1000) 1 40) - 0.63184144378) 0 1
      ∧ (temperatureToRGB T).z
          = (if glmClamp (T / 1000) 1 40 ≤ 19 then 0
             else glmClamp (0.54320678911 * Real.log (glmClamp (T / 1000) 1 40 - 10)
                - 1.19625408914) 0 1)
      ∧ (T ≤ 19000 → (temperatureToRGB T).z = 0) := by
  have hm := glmClamp_mem (T / 1000) (show (1 : ℝ) ≤ 40 by norm_num)
  have h66 : glmClamp (T / 1000) 1 40 ≤ 66 := by linarith [hm.2]
  have hn66 : ¬ (glmClamp (T / 1000) 1 40 ≥ 66) := by
    intro h
    linarith [hm.2]
  have l1 : (1000.0 : ℝ) = 1000 := by norm_num
  have l2 : (1.0 : ℝ) = 1 := by norm_num
  have l3 : (40.0 : ℝ) = 40 := by norm_num
  have l4 : (66.0 : ℝ) = 66 := by norm_num
  have l5 : (19.0 : ℝ) = 19 := by norm_num
  have l6 : (10.0 : ℝ) = 10 := by norm_num
  have l7 : (0.0 : ℝ) = 0 := by norm_num
  have hz : (temperatureToRGB T).z
      = (if glmClamp (T / 1000) 1 40 ≤ 19 then 0
         else glmClamp (0.54320678911 * Real.log (glmClamp (T / 1000) 1 40 - 10)
            - 1.19625408914) 0 1) := by
    unfold temperatureToRGB
    simp only [l1, l2, l3, l4, l5, l6, l7]
    rw [if_neg hn66]
  refine ⟨?_, hm, h66, hn66, ?_, hz, ?_⟩
  · unfold temperatureToRGB
    simp only [l1, l2, l3, l4, l5, l6, l7]
    rw [if_pos h66]
  · unfold temperatureToRGB
    simp only [l1, l2, l3, l4, l5, l6, l7]
    rw [if_pos h66]
  · intro hT
    have h19 : glmClamp (T / 1000) 1 40 ≤ 19 :=
      glmClamp_le_of_le (by linarith) (by norm_num)
    rw [hz, if_pos h19]

/-! ## BlackHole: photon sphere against the event horizon -/

theorem BlackHole.init_1e5_radius : (BlackHole.init 1e5 0.5).m_schwarzschildRadius = 3.6 := by
  have hlog : Real.log (10000 : ℝ) = 4 * Real.log 10 := by
    rw [show (10000 : ℝ) = 10 ^ 4 by norm_num, Real.log_pow]
    norm_num
  have hl10 : Real.log (10 : ℝ) ≠ 0 := by
    have : 0 < Real.log (10 : ℝ) := Real.log_pos (by norm_num)
    exact ne_of_gt this
  unfold BlackHole.init
  rw [BlackHole.update_radius, fmax_eq_max]
  simp only [BlackHole.rawRadius]
  rw [if_pos (by norm_num)]
  have e : (1e5 : ℝ) / 10.0 = 10000 := by norm_num
  have e2 : (10.0 : ℝ) = 10 := by norm_num
  rw [e, e2, hlog, mul_div_assoc, mul_div_assoc, div_self hl10]
  norm_num

theorem BlackHole.init_1e5_spin : (BlackHole.init 1e5 0.5).m_spin = 0.5 :=
  BlackHole.init_spin_of_mem _ (by norm_num) (by norm_num)

theorem BlackHole.init_1e5_param : (BlackHole.init 1e5 0.5).m_spinParameter = 0.9 := by
  rw [((BlackHole.Reachable.ctor 1e5 0.5).inv).param_eq, BlackHole.init_1e5_radius,
    BlackHole.init_1e5_spin]
  norm_num

theorem cos_two_thirds_arccos_bound :
    Real.cos (2 / 3 * Real.arccos (-0.9)) < -0.155 := by
  have hy0 := Real.arccos_nonneg (-0.9)
  have hy1 := Real.arccos_le_pi (-0.9)
  have hpi := Real.pi_pos
  have hcy : Real.cos (Real.arccos (-0.9)) = -0.9 :=
    Real.cos_arccos (by norm_num) (by norm_num)
  have h3 := Real.cos_three_mul (Real.arccos (-0.9) / 3)
  rw [show 3 * (Real.arccos (-0.9) / 3) = Real.arccos (-0.9) by ring, hcy] at h3
  have hc0 : 0 ≤ Real.cos (Real.arccos (-0.9) / 3) := by
    apply Real.cos_nonneg_of_neg_pi_div_two_le_of_le
    · linarith
    · linarith
  have hc : Real.cos (Real.arccos (-0.9) / 3) < 0.65 := by
    by_contra hn
    have hn := not_lt.mp hn
    nlinarith [mul_nonneg (sub_nonneg.mpr hn) (sub_nonneg.mpr hn),
      mul_nonneg (mul_nonneg (sub_nonneg.mpr hn) (sub_nonneg.mpr hn)) hc0]
  have h2 := Real.cos_two_mul (Real.arccos (-0.9) / 3)
  rw [show 2 * (Real.arccos (-0.9) / 3) = 2 / 3 * Real.arccos (-0.9) by ring] at h2
  rw [h2]
  nlinarith

/-- C27, evaluated on `BlackHole(1e5, 0.5)`: the state is reachable with mass at least 0.1
and spin 0.5, its Schwarzschild radius is 3.6 and its spin parameter 0.9 is at most 1, so the
photon-sphere formula is defined; yet `getPhotonSphereRadius()` is below 3.05 while
`getEventHorizonRadius()` is above 3.3, so the photon sphere lies inside the event horizon.
For spin below 0.01 the photon sphere (1.5 times the Schwarzschild radius) is not inside the
event horizon (the Schwarzschild radius). -/
theorem C27_photon_sphere_inside_horizon :
    (BlackHole.init 1e5 0.5).Reachable
      ∧ 0.1 ≤ (BlackHole.init 1e5 0.5).getMass
      ∧ (BlackHole.init 1e5 0.5).getSpin = 0.5
      ∧ (BlackHole.init 1e5 0.5).m_spinParameter ≤ 1
      ∧ (∃ p e, (BlackHole.init 1e5 0.5).getPhotonSphereRadius = some p
          ∧ (BlackHole.init 1e5 0.5).getEventHorizonRadius 0 = some e
          ∧ p < 3.05 ∧ 3.3 < e ∧ ¬ (p ≥ e))
      ∧ ∀ (bh : BlackHole) (theta : ℝ), bh.Reachable → bh.getSpin < 0.01 →
          ∃ p e, bh.getPhotonSphereRadius = some p ∧ bh.getEventHorizonRadius theta = some e
            ∧ p ≥ e := by
  have hs := BlackHole.init_1e5_spin
  have hr := BlackHole.init_1e5_radius
  have ha := BlackHole.init_1e5_param
  have hcos := cos_two_thirds_arccos_bound
  have hmass : (BlackHole.init 1e5 0.5).getMass = 1e5 := rfl
  refine ⟨BlackHole.Reachable.ctor _ _, ?_, hs, ?_, ?_, ?_⟩
  · rw [hmass]
    norm_num
  · rw [ha]
    norm_num
  · have hac : facos (-(BlackHole.init 1e5 0.5).m_spinParameter)
        = some (Real.arccos (-0.9)) := by
      unfold facos
      rw [ha, if_pos (by norm_num)]
    have harg : (0 : ℝ) ≤ (BlackHole.init 1e5 0.5).m_schwarzschildRadius * 0.5
        * ((BlackHole.init 1e5 0.5).m_schwarzschildRadius * 0.5)
        - (BlackHole.init 1e5 0.5).m_spinParameter
          * (BlackHole.init 1e5 0.5).m_spinParameter := by
      rw [hr, ha]
      norm_num
    have hsq : (1.5 : ℝ) < Real.sqrt (2.43) := by
      rw [Real.lt_sqrt (by norm_num)]
      norm_num
    refine ⟨3.6 * (1 + Real.cos (2 / 3 * Real.arccos (-0.9))), 1.8 + Real.sqrt 2.43,
      ?_, ?_, ?_, ?_, ?_⟩
    · unfold BlackHole.getPhotonSphereRadius
      rw [if_neg (by rw [hs]; norm_num)]
      simp only [hac, hr, Option.bind_eq_bind, Option.some_bind, Option.pure_def]
      norm_num
    · unfold BlackHole.getEventHorizonRadius
      rw [if_neg (by rw [hs]; norm_num)]
      simp only [fsqrt_of_nonneg harg, Option.bind_eq_bind, Option.some_bind, Option.pure_def]
      rw [hr, ha]
      norm_num
    · linarith
    · linarith
    · intro hge
      linarith
  · intro bh theta hreach hspin
    unfold BlackHole.getSpin at hspin
    have hrad := hreach.inv.radius_ge_one
    refine ⟨1.5 * bh.m_schwarzschildRadius, bh.m_schwarzschildRadius, ?_,
      BlackHole.eventHorizon_of_small_spin bh theta hspin, ?_⟩
    · unfold BlackHole.getPhotonSphereRadius
      rw [if_pos hspin]
    · linarith

/-! ## Vector facts -/

theorem Vec3.dot_self_nonneg (v : Vec3) : 0 ≤ v.dot v := by
  unfold Vec3.dot
  nlinarith [mul_self_nonneg v.x, mul_self_nonneg v.y, mul_self_nonneg v.z]

theorem Vec3.normalize_eq_some {v w : Vec3} (h : v.normalize = some w) :
    v.dot v ≠ 0 ∧ w = v.smul (1 / Real.sqrt (v.dot v)) := by
  unfold Vec3.normalize at h
  by_cases h0 : v.dot v = 0
  · rw [if_pos h0] at h
    exact absurd h (by simp)
  · rw [if_neg h0] at h
    exact ⟨h0, (Option.some.inj h).symm⟩

theorem Vec3.normalize_of_ne {v : Vec3} (h : v.dot v ≠ 0) :
    v.normalize = some (v.smul (1 / Real.sqrt (v.dot v))) := by
  unfold Vec3.normalize
  rw [if_neg h]

theorem Vec3.dot_smul_smul (a b : Vec3) (s t : ℝ) :
    (a.smul s).dot (b.smul t) = s * t * a.dot b := by
  unfold Vec3.dot Vec3.smul
  simp only
  ring

theorem Vec3.dot_self_of_normalize {v w : Vec3} (h : v.normalize = some w) : w.dot w = 1 := by
  obtain ⟨h0, hw⟩ := Vec3.normalize_eq_some h
  have hpos : 0 < v.dot v := lt_of_le_of_ne (Vec3.dot_self_nonneg v) (Ne.symm h0)
  have hsp : 0 < Real.sqrt (v.dot v) := Real.sqrt_pos.mpr hpos
  rw [hw, Vec3.dot_smul_smul]
  field_simp

theorem Vec3.dot_mem_of_unit {a b : Vec3} (ha : a.dot a = 1) (hb : b.dot b = 1) :
    -1 ≤ a.dot b ∧ a.dot b ≤ 1 := by
  have hL : (a.dot b) ^ 2 ≤ 1 := by
    have hlag : a.dot a * b.dot b - (a.dot b) ^ 2 = (a.cross b).dot (a.cross b) := by
      unfold Vec3.dot Vec3.cross
      simp only
      ring
    have := Vec3.dot_self_nonneg (a.cross b)
    rw [ha, hb] at hlag
    linarith
  constructor
  · nlinarith
  · nlinarith

/-! ## AccretionDisk: Doppler factor on a rotating disk -/

theorem AccretionDisk.getDopplerFactor_inside (d : AccretionDisk) (bh : BlackHole)
    (position observerDir velocity motionDir : Vec3)
    (hin : ¬ (Real.sqrt (position.x * position.x + position.z * position.z) < d.m_innerRadius
      ∨ Real.sqrt (position.x * position.x + position.z * position.z) > d.m_outerRadius))
    (hv : d.getVelocity bh (Real.sqrt (position.x * position.x + position.z * position.z))
      (atan2 position.z position.x) = some velocity)
    (hn : velocity.normalize = some motionDir)
    (hdiv : 1 / Real.sqrt (1 - fmin (velocity.length / SPEED_OF_LIGHT) 0.99
        * fmin (velocity.length / SPEED_OF_LIGHT) 0.99)
      * (1 - fmin (velocity.length / SPEED_OF_LIGHT) 0.99 * motionDir.dot observerDir) ≠ 0) :
    d.getDopplerFactor bh position observerDir
      = some (clamp (1 / (1 / Real.sqrt (1 - fmin (velocity.length / SPEED_OF_LIGHT) 0.99
            * fmin (velocity.length / SPEED_OF_LIGHT) 0.99)
          * (1 - fmin (velocity.length / SPEED_OF_LIGHT) 0.99 * motionDir.dot observerDir)))
        0.1 10) := by
  have l1 : (1.0 : ℝ) = 1 := by norm_num
  have l2 : (10.0 : ℝ) = 10 := by norm_num
  unfold AccretionDisk.getDopplerFactor Vec2.length
  simp only [if_neg hin, hv, hn, Option.bind_eq_bind, Option.some_bind, Option.pure_def, l1, l2]
  rw [if_neg hdiv]

theorem AccretionDisk.velocity_facts (d : AccretionDisk) {bh : BlackHole} (hb : bh.Inv)
    {r : ℝ} (phi : ℝ) (hr : 0 < r) (hrot : d.m_rotationSpeed ≠ 0) :
    ∃ velocity motionDir : Vec3, d.getVelocity bh r phi = some velocity
      ∧ velocity.dot velocity ≠ 0
      ∧ velocity.normalize = some motionDir
      ∧ velocity.length
          = Real.sqrt (bh.m_schwarzschildRadius * 0.5 / r) * |d.m_rotationSpeed| := by
  have hM : 0 < bh.m_schwarzschildRadius * 0.5 := by
    have := hb.radius_ge_one
    norm_num
    linarith
  have hq : 0 < bh.m_schwarzschildRadius * 0.5 / r := div_pos hM hr
  have hsq : 0 < Real.sqrt (bh.m_schwarzschildRadius * 0.5 / r) := Real.sqrt_pos.mpr hq
  have hv := d.getVelocity_eq bh phi (ne_of_gt hr) hq.le
  have hlen := Vec3.length_tangential phi
    (Real.sqrt (bh.m_schwarzschildRadius * 0.5 / r) * d.m_rotationSpeed)
  have hvne : Real.sqrt (bh.m_schwarzschildRadius * 0.5 / r) * d.m_rotationSpeed ≠ 0 :=
    mul_ne_zero (ne_of_gt hsq) hrot
  have hdot : Vec3.dot
      ⟨-Real.sin phi * (Real.sqrt (bh.m_schwarzschildRadius * 0.5 / r) * d.m_rotationSpeed), 0,
        Real.cos phi * (Real.sqrt (bh.m_schwarzschildRadius * 0.5 / r) * d.m_rotationSpeed)⟩
      ⟨-Real.sin phi * (Real.sqrt (bh.m_schwarzschildRadius * 0.5 / r) * d.m_rotationSpeed), 0,
        Real.cos phi * (Real.sqrt (bh.m_schwarzschildRadius * 0.5 / r) * d.m_rotationSpeed)⟩
      ≠ 0 := by
    have e : Vec3.dot
        ⟨-Real.sin phi * (Real.sqrt (bh.m_schwarzschildRadius * 0.5 / r) * d.m_rotationSpeed), 0,
          Real.cos phi * (Real.sqrt (bh.m_schwarzschildRadius * 0.5 / r) * d.m_rotationSpeed)⟩
        ⟨-Real.sin phi * (Real.sqrt (bh.m_schwarzschildRadius * 0.5 / r) * d.m_rotationSpeed), 0,
          Real.cos phi * (Real.sqrt (bh.m_schwarzschildRadius * 0.5 / r) * d.m_rotationSpeed)⟩
        = (Real.sqrt (bh.m_schwarzschildRadius * 0.5 / r) * d.m_rotationSpeed) ^ 2 := by
      unfold Vec3.dot
      simp only
      have := Real.sin_sq_add_cos_sq phi
      linear_combination
        (Real.sqrt (bh.m_schwarzschildRadius * 0.5 / r) * d.m_rotationSpeed) ^ 2 * this
    rw [e]
    exact pow_ne_zero 2 hvne
  refine ⟨_, _, hv, hdot, Vec3.normalize_of_ne hdot, ?_⟩
  rw [hlen, abs_mul, abs_of_pos hsq]

theorem fmin_beta_mem {b : ℝ} (hb : 0 ≤ b) : 0 ≤ fmin b 0.99 ∧ fmin b 0.99 ≤ 0.99 := by
  unfold fmin
  split_ifs with h
  · norm_num
  · exact ⟨hb, not_lt.mp h⟩

theorem doppler_divisor_pos {beta k : ℝ} (h0 : 0 ≤ beta) (h1 : beta ≤ 0.99) (hk2 : k ≤ 1) :
    0 < 1 - beta * beta ∧ 0 < 1 / Real.sqrt (1 - beta * beta) * (1 - beta * k) := by
  have hb : 0 < 1 - beta * beta := by nlinarith
  have hk : 0 < 1 - beta * k := by nlinarith
  exact ⟨hb, mul_pos (one_div_pos.mpr (Real.sqrt_pos.mpr hb)) hk⟩

theorem Vec3.dot_self_of_length {v : Vec3} (h : v.length = 1) : v.dot v = 1 := by
  unfold Vec3.length at h
  have h2 := Real.sq_sqrt (Vec3.dot_self_nonneg v)
  rw [h] at h2
  linarith

theorem AccretionDisk.doppler_defined (d : AccretionDisk) {bh : BlackHole} (hb : bh.Inv)
    (position observerDir : Vec3) (hi : 0 < d.m_innerRadius) (hrot : d.m_rotationSpeed ≠ 0)
    (hin : ¬ (Real.sqrt (position.x * position.x + position.z * position.z) < d.m_innerRadius
      ∨ Real.sqrt (position.x * position.x + position.z * position.z) > d.m_outerRadius))
    (hu : observerDir.length = 1) :
    ∃ velocity motionDir : Vec3,
      d.getVelocity bh (Real.sqrt (position.x * position.x + position.z * position.z))
          (atan2 position.z position.x) = some velocity
        ∧ velocity.dot velocity ≠ 0
        ∧ velocity.normalize = some motionDir
        ∧ velocity.length
            = Real.sqrt (bh.m_schwarzschildRadius * 0.5
                / Real.sqrt (position.x * position.x + position.z * position.z))
              * |d.m_rotationSpeed|
        ∧ (-1 ≤ motionDir.dot observerDir ∧ motionDir.dot observerDir ≤ 1)
        ∧ 0 < 1 - fmin (velocity.length / SPEED_OF_LIGHT) 0.99
            * fmin (velocity.length / SPEED_OF_LIGHT) 0.99
        ∧ 0 < 1 / Real.sqrt (1 - fmin (velocity.length / SPEED_OF_LIGHT) 0.99
              * fmin (velocity.length / SPEED_OF_LIGHT) 0.99)
            * (1 - fmin (velocity.length / SPEED_OF_LIGHT) 0.99 * motionDir.dot observerDir)
        ∧ d.getDopplerFactor bh position observerDir
          = some (clamp (1 / (1 / Real.sqrt (1 - fmin (velocity.length / SPEED_OF_LIGHT) 0.99
                * fmin (velocity.length / SPEED_OF_LIGHT) 0.99)
              * (1 - fmin (velocity.length / SPEED_OF_LIGHT) 0.99
                  * motionDir.dot observerDir)))
            0.1 10) := by
  push_neg at hin
  have hr : 0 < Real.sqrt (position.x * position.x + position.z * position.z) :=
    lt_of_lt_of_le hi hin.1
  obtain ⟨velocity, motionDir, hv, hne, hn, hlen⟩ :=
    d.velocity_facts hb (atan2 position.z position.x) hr hrot
  have hk := Vec3.dot_mem_of_unit (Vec3.dot_self_of_normalize hn) (Vec3.dot_self_of_length hu)
  have hc : (0 : ℝ) < SPEED_OF_LIGHT := by
    unfold SPEED_OF_LIGHT
    norm_num
  have hb0 : 0 ≤ velocity.length / SPEED_OF_LIGHT :=
    div_nonneg (Real.sqrt_nonneg _) hc.le
  obtain ⟨hβ0, hβ1⟩ := fmin_beta_mem hb0
  obtain ⟨hp1, hp2⟩ := doppler_divisor_pos hβ0 hβ1 hk.2
  refine ⟨velocity, motionDir, hv, hne, hn, hlen, hk, hp1, hp2, ?_⟩
  exact d.getDopplerFactor_inside bh position observerDir velocity motionDir
    (by push_neg; exact hin) hv hn (ne_of_gt hp2)

/-- C25, evaluated on the disk of `BlackHole(10, 0)` after `setRotationSpeed(0)`, at position
`(10, 0, 0)` with the unit observer direction `(1, 0, 0)`: the state is reachable and
satisfies the data-model invariant (rotation speed 0 is non-negative), the planar radius 10
lies in `[6, 30]`, but the orbital velocity passed to `normalize` is the zero vector, its
normalisation is NaN and `getDopplerFactor` has no real value. For every disk with
`innerRadius > 0` and a non-zero rotation speed the velocity is non-zero, `1 - beta^2 > 0`,
`gamma * (1 - beta * cosTheta)` is positive and the result is a real number. -/
theorem C25_zero_velocity_normalised :
    ((AccretionDisk.mk 6 30 0.5 0.0 1.0 100000.0).setRotationSpeed 0).Reachable
      ∧ ((AccretionDisk.mk 6 30 0.5 0.0 1.0 100000.0).setRotationSpeed 0).SpecInvariant
      ∧ (((AccretionDisk.mk 6 30 0.5 0.0 1.0 100000.0).setRotationSpeed 0).getInnerRadius
            ≤ Real.sqrt ((10 : ℝ) * 10 + 0 * 0)
          ∧ Real.sqrt ((10 : ℝ) * 10 + 0 * 0)
            ≤ ((AccretionDisk.mk 6 30 0.5 0.0 1.0 100000.0).setRotationSpeed 0).getOuterRadius)
      ∧ (Vec3.mk 1 0 0).length = 1
      ∧ (∃ velocity : Vec3,
          ((AccretionDisk.mk 6 30 0.5 0.0 1.0 100000.0).setRotationSpeed 0).getVelocity
              (BlackHole.init 10 0) (Real.sqrt ((10 : ℝ) * 10 + 0 * 0)) (atan2 0 10)
            = some velocity
          ∧ velocity.dot velocity = 0 ∧ velocity.normalize = none)
      ∧ ((AccretionDisk.mk 6 30 0.5 0.0 1.0 100000.0).setRotationSpeed 0).getDopplerFactor
          (BlackHole.init 10 0) ⟨10, 0, 0⟩ ⟨1, 0, 0⟩ = none
      ∧ ∀ (d : AccretionDisk) (bh : BlackHole) (position observerDir : Vec3),
          bh.Reachable → 0 < d.getInnerRadius → d.getRotationSpeed ≠ 0 →
          d.getInnerRadius ≤ Real.sqrt (position.x * position.x + position.z * position.z) →
          Real.sqrt (position.x * position.x + position.z * position.z) ≤ d.getOuterRadius →
          observerDir.length = 1 →
          ∃ (velocity motionDir : Vec3) (x : ℝ),
            d.getVelocity bh (Real.sqrt (position.x * position.x + position.z * position.z))
                (atan2 position.z position.x) = some velocity
              ∧ velocity.dot velocity ≠ 0
              ∧ velocity.normalize = some motionDir
              ∧ 0 < 1 - fmin (velocity.length / SPEED_OF_LIGHT) 0.99
                  * fmin (velocity.length / SPEED_OF_LIGHT) 0.99
              ∧ 1 / Real.sqrt (1 - fmin (velocity.length / SPEED_OF_LIGHT) 0.99
                    * fmin (velocity.length / SPEED_OF_LIGHT) 0.99)
                  * (1 - fmin (velocity.length / SPEED_OF_LIGHT) 0.99
                      * motionDir.dot observerDir) ≠ 0
              ∧ d.getDopplerFactor bh position observerDir = some x := by
  have hrad : Real.sqrt ((10 : ℝ) * 10 + 0 * 0) = 10 := by
    have : ((10 : ℝ) * 10 + 0 * 0) = 10 ^ 2 := by norm_num
    rw [this, Real.sqrt_sq (by norm_num)]
  have hq : 0 ≤ (BlackHole.init 10 0).m_schwarzschildRadius * 0.5 / 10 := by
    rw [BlackHole.init_ten_radius]
    norm_num
  refine ⟨?_, ?_, ?_, ?_, ?_, AccretionDisk.getDopplerFactor_still_disk, ?_⟩
  · exact AccretionDisk.Reachable.setRotationSpeed _ _
      (AccretionDisk.Reachable.ctor _ _ (BlackHole.Reachable.ctor 10 0) AccretionDisk.init_ten)
  · unfold AccretionDisk.SpecInvariant AccretionDisk.getInnerRadius AccretionDisk.getOuterRadius
      AccretionDisk.getThickness AccretionDisk.getRotationSpeed AccretionDisk.setRotationSpeed
    norm_num
  · rw [hrad]
    unfold AccretionDisk.getInnerRadius AccretionDisk.getOuterRadius
      AccretionDisk.setRotationSpeed
    norm_num
  · unfold Vec3.length Vec3.dot
    norm_num
  · rw [hrad]
    refine ⟨_, AccretionDisk.getVelocity_eq _ (BlackHole.init 10 0) (atan2 0 10)
      (show (10 : ℝ) ≠ 0 by norm_num) hq, ?_, ?_⟩
    · unfold Vec3.dot AccretionDisk.setRotationSpeed
      simp
    · unfold Vec3.normalize Vec3.dot AccretionDisk.setRotationSpeed
      simp
  · intro d bh position observerDir hb hi hrot h1 h2 hu
    unfold AccretionDisk.getInnerRadius at hi h1
    unfold AccretionDisk.getOuterRadius at h2
    unfold AccretionDisk.getRotationSpeed at hrot
    obtain ⟨velocity, motionDir, hv, hne, hn, -, -, hp1, hp2, hx⟩ :=
      d.doppler_defined hb.inv position observerDir hi hrot
        (by push_neg; exact ⟨h1, h2⟩) hu
    exact ⟨velocity, motionDir, _, hv, hne, hn, hp1, ne_of_gt hp2, hx⟩

/-! ## AccretionDisk: size of the Doppler factor -/

end Physics

/-! ## Camera: orbit, zoom and the basis vectors -/

namespace Core

open Physics

theorem thetaLoopSub_of_le {theta : ℝ} (h : theta ≤ 2 * Real.pi) : thetaLoopSub theta = theta := by
  rw [thetaLoopSub, dif_neg (not_lt.mpr h)]

theorem thetaLoopSub_of_gt {theta : ℝ} (h : theta > 2 * Real.pi) :
    thetaLoopSub theta = thetaLoopSub (theta - 2 * Real.pi) := by
  rw [thetaLoopSub, dif_pos h]

theorem thetaLoopAdd_of_nonneg {theta : ℝ} (h : 0 ≤ theta) : thetaLoopAdd theta = theta := by
  rw [thetaLoopAdd, dif_neg]
  norm_num
  exact h

theorem thetaLoopAdd_of_neg {theta : ℝ} (h : theta < 0) :
    thetaLoopAdd theta = thetaLoopAdd (theta + 2 * Real.pi) := by
  rw [thetaLoopAdd, dif_pos]
  norm_num
  exact h

theorem thetaLoopSub_le (theta : ℝ) : thetaLoopSub theta ≤ 2 * Real.pi := by
  induction theta using thetaLoopSub.induct with
  | case1 theta h ih => rw [thetaLoopSub_of_gt h]; exact ih
  | case2 theta h => rw [thetaLoopSub_of_le (not_lt.mp h)]; exact not_lt.mp h

theorem thetaLoopSub_pos_of_gt {theta : ℝ} (h0 : 2 * Real.pi < theta) :
    0 < thetaLoopSub theta := by
  induction theta using thetaLoopSub.induct with
  | case1 theta h ih =>
    rw [thetaLoopSub_of_gt h]
    by_cases hc : 2 * Real.pi < theta - 2 * Real.pi
    · exact ih hc
    · rw [thetaLoopSub_of_le (not_lt.mp hc)]
      linarith
  | case2 theta h => exact absurd h0 h

theorem thetaLoopAdd_mem (theta : ℝ) (hle : theta ≤ 2 * Real.pi) :
    0 ≤ thetaLoopAdd theta ∧ thetaLoopAdd theta ≤ 2 * Real.pi := by
  induction theta using thetaLoopAdd.induct with
  | case1 theta h ih =>
    have h0 : theta < 0 := by
      norm_num at h
      exact h
    rw [thetaLoopAdd_of_neg h0]
    exact ih (by linarith)
  | case2 theta h =>
    have h0 : 0 ≤ theta := by
      norm_num at h
      exact h
    rw [thetaLoopAdd_of_nonneg h0]
    exact ⟨h0, hle⟩

namespace Camera

theorem orbit_phi (c : Camera) (deltaTheta deltaPhi : ℝ) :
    (c.orbit deltaTheta deltaPhi).m_phi = clamp (c.m_phi + deltaPhi) 0.01 (Real.pi - 0.01) := rfl

theorem orbit_theta (c : Camera) (deltaTheta deltaPhi : ℝ) :
    (c.orbit deltaTheta deltaPhi).m_theta = thetaLoopAdd (thetaLoopSub (c.m_theta + deltaTheta)) :=
  rfl

theorem orbit_phi_mem (c : Camera) (deltaTheta deltaPhi : ℝ) :
    0.01 ≤ (c.orbit deltaTheta deltaPhi).m_phi
      ∧ (c.orbit deltaTheta deltaPhi).m_phi ≤ Real.pi - 0.01 := by
  rw [orbit_phi]
  apply clamp_mem
  have := Real.pi_gt_three
  norm_num
  linarith

theorem orbit_theta_mem (c : Camera) (deltaTheta deltaPhi : ℝ) :
    0 ≤ (c.orbit deltaTheta deltaPhi).m_theta
      ∧ (c.orbit deltaTheta deltaPhi).m_theta ≤ 2 * Real.pi := by
  rw [orbit_theta]
  exact thetaLoopAdd_mem _ (thetaLoopSub_le _)

theorem zoom_distance (c : Camera) (delta : ℝ) :
    (c.zoom delta).m_distance = fmax 0.5 (c.m_distance + delta) := rfl

theorem init_theta (position target : Vec3) (fov : ℝ) :
    (init position target fov).m_theta = 0 := by
  unfold init updateVectors
  norm_num

end Camera

theorem Camera.front_normalize_isSome (c : Camera) : c.front.normalize.isSome = true := by
  have h1 := Real.sin_sq_add_cos_sq (radians c.m_yaw)
  have h2 := Real.sin_sq_add_cos_sq (radians c.m_pitch)
  have hdot : c.front.dot c.front = 1 := by
    unfold Camera.front Vec3.dot
    simp only
    linear_combination Real.cos (radians c.m_pitch) ^ 2 * h1 + h2
  unfold Vec3.normalize
  rw [hdot, if_neg one_ne_zero]
  rfl

/-- C17: for every camera state and every `(deltaTheta, deltaPhi)`, after
`orbit(deltaTheta, deltaPhi)` the value of `getPhi()` lies in `[0.01, pi - 0.01]`; the same
holds after any further sequence of orbit calls. -/
theorem C17_orbit_phi_in_range (c : Camera) (deltaTheta deltaPhi : ℝ) :
    (0.01 ≤ (c.orbit deltaTheta deltaPhi).getPhi
        ∧ (c.orbit deltaTheta deltaPhi).getPhi ≤ Real.pi - 0.01)
      ∧ ∀ calls : List (ℝ × ℝ),
          0.01 ≤ (calls.foldl (fun s p => s.orbit p.1 p.2) (c.orbit deltaTheta deltaPhi)).getPhi
            ∧ (calls.foldl (fun s p => s.orbit p.1 p.2) (c.orbit deltaTheta deltaPhi)).getPhi
                ≤ Real.pi - 0.01 := by
  unfold Camera.getPhi
  refine ⟨Camera.orbit_phi_mem c deltaTheta deltaPhi, ?_⟩
  intro calls
  have key : ∀ (l : List (ℝ × ℝ)) (s : Camera),
      (0.01 ≤ s.m_phi ∧ s.m_phi ≤ Real.pi - 0.01) →
      0.01 ≤ (l.foldl (fun s p => s.orbit p.1 p.2) s).m_phi
        ∧ (l.foldl (fun s p => s.orbit p.1 p.2) s).m_phi ≤ Real.pi - 0.01 := by
    intro l
    induction l with
    | nil => intro s hs; exact hs
    | cons p l ih =>
      intro s _
      rw [List.foldl_cons]
      exact ih _ (Camera.orbit_phi_mem s p.1 p.2)
  exact key calls _ (Camera.orbit_phi_mem c deltaTheta deltaPhi)

/-- C18, evaluated on the default camera `Camera((0,0,10), (0,0,0), 60)` with
`orbit(2*pi, 0)`: the first loop only runs while `theta > 2*pi`, so `theta = 2*pi` is left
as it is and `getTheta()` returns `2*pi`, which is not below `2*pi`. In general, after every
orbit call `getTheta()` lies in the closed interval `[0, 2*pi]`. -/
theorem C18_orbit_theta_reaches_two_pi :
    ((Camera.init ⟨0, 0, 10⟩ ⟨0, 0, 0⟩ 60).orbit (2 * Real.pi) 0).getTheta = 2 * Real.pi
      ∧ ¬ ((Camera.init ⟨0, 0, 10⟩ ⟨0, 0, 0⟩ 60).orbit (2 * Real.pi) 0).getTheta < 2 * Real.pi
      ∧ ∀ (c : Camera) (deltaTheta deltaPhi : ℝ),
          0 ≤ (c.orbit deltaTheta deltaPhi).getTheta
            ∧ (c.orbit deltaTheta deltaPhi).getTheta ≤ 2 * Real.pi := by
  have hpi : 0 ≤ 2 * Real.pi := by positivity
  have e : ((Camera.init ⟨0, 0, 10⟩ ⟨0, 0, 0⟩ 60).orbit (2 * Real.pi) 0).getTheta
      = 2 * Real.pi := by
    unfold Camera.getTheta
    rw [Camera.orbit_theta, Camera.init_theta, zero_add, thetaLoopSub_of_le (le_refl _),
      thetaLoopAdd_of_nonneg hpi]
  refine ⟨e, ?_, ?_⟩
  · rw [e]
    exact lt_irrefl _
  · intro c deltaTheta deltaPhi
    exact Camera.orbit_theta_mem c deltaTheta deltaPhi

/-- C19: for every camera state and every `delta`, after `zoom(delta)` the value of
`getDistance()` is `max(0.5, previous distance + delta)`, hence at least 0.5. -/
theorem C19_zoom_distance_floor (c : Camera) (delta : ℝ) :
    (c.zoom delta).getDistance = max 0.5 (c.getDistance + delta)
      ∧ 0.5 ≤ (c.zoom delta).getDistance := by
  unfold Camera.getDistance
  rw [Camera.zoom_distance, fmax_eq_max]
  exact ⟨rfl, le_max_left _ _⟩

namespace Camera

theorem updateVectors_orbit (c : Camera) (h : c.m_mode = CameraMode.Orbit) :
    (updateVectors c).m_position = c.m_position
      ∧ (updateVectors c).m_target = c.m_target
      ∧ (updateVectors c).m_forward = (c.m_target.sub c.m_position).normalize
      ∧ (updateVectors c).m_right
          = (updateVectors c).m_forward.bind (fun f => (f.cross ⟨0, 1, 0⟩).normalize)
      ∧ (updateVectors c).m_up
          = (updateVectors c).m_right.bind (fun r =>
              (updateVectors c).m_forward.bind fun f => (r.cross f).normalize) := by
  unfold updateVectors
  simp only [h]
  norm_num

theorem basis_of_updateVectors_orbit (c : Camera) (h : c.m_mode = CameraMode.Orbit) :
    (updateVectors c).getForward
        = ((updateVectors c).getTarget.sub (updateVectors c).getPosition).normalize
      ∧ (updateVectors c).getRight
          = (updateVectors c).getForward.bind (fun f => (f.cross ⟨0, 1, 0⟩).normalize)
      ∧ (updateVectors c).getUp
          = (updateVectors c).getRight.bind (fun r =>
              (updateVectors c).getForward.bind fun f => (r.cross f).normalize) := by
  obtain ⟨hp, ht, hf, hr, hu⟩ := updateVectors_orbit c h
  unfold getForward getTarget getPosition getRight getUp
  rw [hp, ht]
  exact ⟨hf, hr, hu⟩

theorem init_forward :
    (init ⟨0, 0, 10⟩ ⟨0, 0, 0⟩ 60).m_forward
      = some ⟨0 * (1 / Real.sqrt 100), 0 * (1 / Real.sqrt 100), -10 * (1 / Real.sqrt 100)⟩ := by
  unfold init
  rw [(updateVectors_orbit _ rfl).2.2.1]
  unfold Vec3.normalize Vec3.sub Vec3.dot Vec3.smul
  norm_num

theorem init_orbit_position :
    ((init ⟨0, 0, 10⟩ ⟨0, 0, 0⟩ 60).orbit 0 0).m_position = ⟨10, 0, 0⟩ := by
  have hsq : Real.sqrt (100 : ℝ) = 10 := by
    rw [show (100 : ℝ) = 10 ^ 2 by norm_num]
    exact Real.sqrt_sq (by norm_num)
  have hpi := Real.pi_gt_three
  have hphi : clamp (Real.pi / 2 + 0) 0.01 (Real.pi - 0.01) = Real.pi / 2 := by
    rw [add_zero]
    apply clamp_of_mem
    · norm_num
      linarith
    · norm_num
      linarith
  have htheta : thetaLoopAdd (thetaLoopSub ((0.0 : ℝ) + 0)) = 0 := by
    have hz : ((0.0 : ℝ) + 0) = 0 := by norm_num
    rw [hz, thetaLoopSub_of_le (by positivity), thetaLoopAdd_of_nonneg (le_refl _)]
  have hd : (Vec3.sub ⟨0, 0, 10⟩ ⟨0, 0, 0⟩).length = 10 := by
    unfold Vec3.length Vec3.sub Vec3.dot
    norm_num
    exact hsq
  unfold orbit updateOrbitPosition init updateVectors
  simp only [hphi, htheta, hd]
  unfold Vec3.add
  simp

end Camera

/-- C20 as stated fails: on the default camera `Camera((0,0,10), (0,0,0), 60)`, which is in
Orbit mode with forward `(0, 0, -1)`, the call `orbit(0, 0)` moves the position to
`(10, 0, 0)` and leaves `forward` as it was, so after the call `forward` is not
`normalize(target - position)`. -/
theorem C20_orbit_leaves_basis_stale :
    ((Camera.init ⟨0, 0, 10⟩ ⟨0, 0, 0⟩ 60).orbit 0 0).m_mode = CameraMode.Orbit
      ∧ ((Camera.init ⟨0, 0, 10⟩ ⟨0, 0, 0⟩ 60).orbit 0 0).getForward
          ≠ (((Camera.init ⟨0, 0, 10⟩ ⟨0, 0, 0⟩ 60).orbit 0 0).getTarget.sub
              ((Camera.init ⟨0, 0, 10⟩ ⟨0, 0, 0⟩ 60).orbit 0 0).getPosition).normalize := by
  refine ⟨rfl, ?_⟩
  have hf : ((Camera.init ⟨0, 0, 10⟩ ⟨0, 0, 0⟩ 60).orbit 0 0).getForward
      = (Camera.init ⟨0, 0, 10⟩ ⟨0, 0, 0⟩ 60).m_forward := rfl
  have ht : ((Camera.init ⟨0, 0, 10⟩ ⟨0, 0, 0⟩ 60).orbit 0 0).getTarget = ⟨0, 0, 0⟩ := rfl
  unfold Camera.getPosition
  rw [hf, ht, Camera.init_forward, Camera.init_orbit_position]
  unfold Vec3.normalize Vec3.sub Vec3.dot Vec3.smul
  norm_num

/-- C20 amended: for a camera in Orbit mode, after `update()` returns and after `rotate()`
returns, `forward = normalize(target - position)`, `right = normalize(cross(forward, (0,1,0)))`
and `up = normalize(cross(right, forward))` on the post-call position and target. The
gestures `orbit`, `zoom`, `pan` and `move` leave `forward`, `right` and `up` exactly as they
were before the call. -/
theorem C20_basis_consistent_after_update (c : Camera) (h : c.m_mode = CameraMode.Orbit)
    (deltaTime : ℝ) :
    ((c.update deltaTime).getForward
          = ((c.update deltaTime).getTarget.sub (c.update deltaTime).getPosition).normalize
        ∧ (c.update deltaTime).getRight
          = (c.update deltaTime).getForward.bind (fun f => (f.cross ⟨0, 1, 0⟩).normalize)
        ∧ (c.update deltaTime).getUp
          = (c.update deltaTime).getRight.bind (fun r =>
              (c.update deltaTime).getForward.bind fun f => (r.cross f).normalize))
      ∧ (∀ deltaYaw deltaPitch,
          (c.rotate deltaYaw deltaPitch).getForward
              = ((c.rotate deltaYaw deltaPitch).getTarget.sub
                  (c.rotate deltaYaw deltaPitch).getPosition).normalize
            ∧ (c.rotate deltaYaw deltaPitch).getRight
              = (c.rotate deltaYaw deltaPitch).getForward.bind
                  (fun f => (f.cross ⟨0, 1, 0⟩).normalize)
            ∧ (c.rotate deltaYaw deltaPitch).getUp
              = (c.rotate deltaYaw deltaPitch).getRight.bind (fun r =>
                  (c.rotate deltaYaw deltaPitch).getForward.bind fun f =>
                    (r.cross f).normalize))
      ∧ (∀ deltaTheta deltaPhi,
          (c.orbit deltaTheta deltaPhi).getForward = c.getForward
            ∧ (c.orbit deltaTheta deltaPhi).getRight = c.getRight
            ∧ (c.orbit deltaTheta deltaPhi).getUp = c.getUp)
      ∧ (∀ delta,
          (c.zoom delta).getForward = c.getForward ∧ (c.zoom delta).getRight = c.getRight
            ∧ (c.zoom delta).getUp = c.getUp)
      ∧ (∀ delta c2, c.pan delta = some c2 →
          c2.getForward = c.getForward ∧ c2.getRight = c.getRight ∧ c2.getUp = c.getUp)
      ∧ (∀ direction speed,
          (c.move direction speed).getForward = c.getForward
            ∧ (c.move direction speed).getRight = c.getRight
            ∧ (c.move direction speed).getUp = c.getUp) := by
  refine ⟨?_, ?_, fun _ _ => ⟨rfl, rfl, rfl⟩, fun _ => ⟨rfl, rfl, rfl⟩, ?_,
    fun _ _ => ⟨rfl, rfl, rfl⟩⟩
  · have hu : c.update deltaTime = Camera.updateVectors (Camera.updateOrbitPosition c) := by
      unfold Camera.update
      simp only [h]
    rw [hu]
    exact Camera.basis_of_updateVectors_orbit _ h
  · intro deltaYaw deltaPitch
    unfold Camera.rotate
    exact Camera.basis_of_updateVectors_orbit _ h
  · intro delta c2 hp
    unfold Camera.pan at hp
    simp only [Option.bind_eq_bind, Option.pure_def] at hp
    obtain ⟨r, -, hp⟩ := Option.bind_eq_some.mp hp
    obtain ⟨u, -, hp⟩ := Option.bind_eq_some.mp hp
    have hp := Option.some.inj hp
    subst hp
    exact ⟨rfl, rfl, rfl⟩

theorem C20_basis_consistent_after_update_witness :
    ((Camera.init ⟨0, 0, 10⟩ ⟨0, 0, 0⟩ 60).orbit 0 0).m_mode = CameraMode.Orbit
      ∧ ((((Camera.init ⟨0, 0, 10⟩ ⟨0, 0, 0⟩ 60).orbit 0 0).update 0).getForward
          = ((((Camera.init ⟨0, 0, 10⟩ ⟨0, 0, 0⟩ 60).orbit 0 0).update 0).getTarget.sub
              (((Camera.init ⟨0, 0, 10⟩ ⟨0, 0, 0⟩ 60).orbit 0 0).update 0).getPosition).normalize) :=
  ⟨rfl, (C20_basis_consistent_after_update
    ((Camera.init ⟨0, 0, 10⟩ ⟨0, 0, 0⟩ 60).orbit 0 0) rfl 0).1.1⟩

namespace Camera

theorem update_orbit_eq (c : Camera) (h : c.m_mode = CameraMode.Orbit) (deltaTime : ℝ) :
    c.update deltaTime = updateVectors (updateOrbitPosition c) := by
  unfold update
  simp only [h]

theorem updateVectors_orbit_fields (c : Camera) (h : c.m_mode = CameraMode.Orbit) :
    (updateVectors c).m_distance = c.m_distance ∧ (updateVectors c).m_theta = c.m_theta
      ∧ (updateVectors c).m_phi = c.m_phi ∧ (updateVectors c).m_mode = c.m_mode := by
  simp [updateVectors, h]

end Camera

theorem Camera.updateVectors_idem_orbit (c : Camera) (h : c.m_mode = CameraMode.Orbit) :
    Camera.updateVectors (Camera.updateOrbitPosition
        (Camera.updateVectors (Camera.updateOrbitPosition c)))
      = Camera.updateVectors (Camera.updateOrbitPosition c) := by
  unfold Camera.updateVectors Camera.updateOrbitPosition
  simp only [h]

theorem Camera.updateVectors_idem_freeFly (c : Camera) (h : c.m_mode = CameraMode.FreeFly) :
    Camera.updateVectors (Camera.updateVectors c) = Camera.updateVectors c := by
  unfold Camera.updateVectors Camera.front
  simp only [h]
  cases hn : Vec3.normalize
      ⟨Real.cos (radians c.m_yaw) * Real.cos (radians c.m_pitch), Real.sin (radians c.m_pitch),
        Real.sin (radians c.m_yaw) * Real.cos (radians c.m_pitch)⟩ <;> simp

/-- C23: `update` is idempotent and ignores `deltaTime`: for every camera state (either mode)
and all `d1`, `d2`, calling `update(d2)` after `update(d1)` leaves the state unchanged, and
`update(d1)` and `update(d2)` produce the same state. -/
theorem C23_update_idempotent (c : Camera) (d1 d2 : ℝ) :
    (c.update d1).update d2 = c.update d1 ∧ c.update d1 = c.update d2 := by
  refine ⟨?_, rfl⟩
  cases hm : c.m_mode with
  | Orbit =>
    have hm1 : (c.update d1).m_mode = CameraMode.Orbit := by
      rw [Camera.update_orbit_eq c hm]
      exact ((Camera.updateVectors_orbit_fields (Camera.updateOrbitPosition c) hm).2.2.2).trans hm
    rw [Camera.update_orbit_eq _ hm1, Camera.update_orbit_eq c hm]
    exact Camera.updateVectors_idem_orbit _ hm
  | FreeFly =>
    have e1 : ∀ d, c.update d = Camera.updateVectors c := by
      intro d
      unfold Camera.update
      simp only [hm]
    have hm1 : (Camera.updateVectors c).m_mode = CameraMode.FreeFly := by
      unfold Camera.updateVectors
      simp only [hm]
    have e2 : (Camera.updateVectors c).update d2
        = Camera.updateVectors (Camera.updateVectors c) := by
      unfold Camera.update
      simp only [hm1]
    rw [e1, e2]
    exact Camera.updateVectors_idem_freeFly c hm

/-! ## Camera: the constructor against the orbit formula -/

theorem Camera.init_fields (position target : Vec3) (fov : ℝ) :
    (Camera.init position target fov).m_mode = CameraMode.Orbit
      ∧ (Camera.init position target fov).m_position = position
      ∧ (Camera.init position target fov).m_target = target
      ∧ (Camera.init position target fov).m_distance = (position.sub target).length
      ∧ (Camera.init position target fov).m_theta = 0
      ∧ (Camera.init position target fov).m_phi = Real.pi / 2 := by
  simp [Camera.init, Camera.updateVectors]
  norm_num

theorem Camera.init_update_position (position target : Vec3) (fov deltaTime : ℝ) :
    ((Camera.init position target fov).update deltaTime).getPosition
      = target.add ⟨(position.sub target).length, 0, 0⟩ := by
  obtain ⟨hm, -, ht, hd, hth, hph⟩ := Camera.init_fields position target fov
  unfold Camera.getPosition
  rw [Camera.update_orbit_eq _ hm,
    (Camera.updateVectors_orbit (Camera.updateOrbitPosition (Camera.init position target fov))
      hm).1]
  unfold Camera.updateOrbitPosition
  simp only [ht, hd, hth, hph, Real.sin_pi_div_two, Real.cos_pi_div_two, Real.cos_zero,
    Real.sin_zero, mul_one, mul_zero]

/-- C24, evaluated on the default camera `Camera((0,0,10), (0,0,0), 60)` and on the camera
`Camera((0,5,20), (0,0,0), 60)` built by `main`: the constructor sets `theta = 0` and
`phi = pi/2` whatever the position, so the constructed state does not satisfy the
orbit-position formula, and the first `update()` moves the default camera from `(0,0,10)` to
`(10,0,0)` and lowers the height of main's camera from 5 to 0. In general the first
`update()` puts the camera at `target + (|position - target|, 0, 0)`. -/
theorem C24_first_update_moves_camera :
    (Camera.init ⟨0, 0, 10⟩ ⟨0, 0, 0⟩ 60).getPosition = ⟨0, 0, 10⟩
      ∧ ¬ (Camera.init ⟨0, 0, 10⟩ ⟨0, 0, 0⟩ 60).OnOrbit
      ∧ ((Camera.init ⟨0, 0, 10⟩ ⟨0, 0, 0⟩ 60).update 0).getPosition = ⟨10, 0, 0⟩
      ∧ ((Camera.init ⟨0, 0, 10⟩ ⟨0, 0, 0⟩ 60).update 0).getPosition
          ≠ (Camera.init ⟨0, 0, 10⟩ ⟨0, 0, 0⟩ 60).getPosition
      ∧ (Camera.init ⟨0, 5, 20⟩ ⟨0, 0, 0⟩ 60).getPosition.y = 5
      ∧ ((Camera.init ⟨0, 5, 20⟩ ⟨0, 0, 0⟩ 60).update 0).getPosition.y = 0
      ∧ ∀ (position target : Vec3) (fov deltaTime : ℝ),
          ((Camera.init position target fov).update deltaTime).getPosition
            = target.add ⟨(position.sub target).length, 0, 0⟩ := by
  have hlen : (Vec3.sub ⟨0, 0, 10⟩ ⟨0, 0, 0⟩).length = 10 := by
    unfold Vec3.length Vec3.sub Vec3.dot
    norm_num
    rw [show (100 : ℝ) = 10 ^ 2 by norm_num]
    exact Real.sqrt_sq (by norm_num)
  have hp0 : (Camera.init ⟨0, 0, 10⟩ ⟨0, 0, 0⟩ 60).getPosition = ⟨0, 0, 10⟩ :=
    (Camera.init_fields _ _ _).2.1
  have hup : ((Camera.init ⟨0, 0, 10⟩ ⟨0, 0, 0⟩ 60).update 0).getPosition = ⟨10, 0, 0⟩ := by
    rw [Camera.init_update_position, hlen]
    unfold Vec3.add
    norm_num
  refine ⟨hp0, ?_, hup, ?_, ?_, ?_, Camera.init_update_position⟩
  · intro ho
    obtain ⟨-, -, ht, hd, hth, hph⟩ := Camera.init_fields ⟨0, 0, 10⟩ ⟨0, 0, 0⟩ 60
    unfold Camera.OnOrbit at ho
    rw [hp0] at ho
    unfold Camera.getTarget Camera.getTheta Camera.getPhi Camera.getDistance at ho
    rw [ht, hd, hth, hph, hlen] at ho
    unfold Camera.sphericalToCartesian Vec3.add Vec3.smul at ho
    simp at ho
  · rw [hup, hp0]
    intro h
    have := congrArg Vec3.x h
    norm_num at this
  · have : (Camera.init ⟨0, 5, 20⟩ ⟨0, 0, 0⟩ 60).getPosition = ⟨0, 5, 20⟩ :=
      (Camera.init_fields _ _ _).2.1
    rw [this]
  · rw [Camera.init_update_position]
    unfold Vec3.add
    norm_num

/-! ## Camera: termination of the theta loops -/

end Core

end
